import Mathlib

/-
Shallow embedding of the streaming-reply subsystem of `app/slack_ops.py`
(`split_long_message`, `_cleanup_cache`, `post_wip_message`,
`update_wip_message`) together with proofs about the specification claims.

Modelling conventions:
* Python strings are modelled as `List Char` (`Str`); UTF-8 byte length is
  the sum of the code points' UTF-8 widths (`utf8Len`), matching
  `len(s.encode("utf-8"))`.
* The byte-oriented split path of `split_long_message` (no newline, no
  space) probes backward from `start + max_length - 6` until the byte slice
  decodes; since `start` always sits on a code-point boundary this is
  exactly "take the longest prefix of whole code points whose encoded
  length fits the budget" (`takeFit`).  When even the first code point
  does not fit the budget the Python loop never advances `start` and the
  function diverges; the embedding returns `none` for that case (`byteSplit`
  is fueled by the number of remaining characters).
* `time.time()` is an explicit parameter `now : Int`; the mutable module
  globals (`_chunk_messages_cache`, Slack messages) are explicit state
  (`Cache`, `World`).  The per-entry `thread_lock` and the threading
  behaviour are not modelled (calls are sequential here).
* The Slack client is modelled by its visible effect: `chat_update`
  overwrites text and metadata of the addressed message, `chat_postMessage`
  appends a fresh message and returns its id.  An append-only `log` of
  outgoing calls records what was sent downstream.
-/

abbrev Str := List Char

/-- UTF-8 encoded byte length of a string, `len(s.encode("utf-8"))`. -/
def utf8Len : Str → Nat
  | [] => 0
  | c :: cs => c.utf8Size + utf8Len cs

/-- Characters stripped by Python's `str.strip()` (the ones that can occur
here); used for the `not text.strip()` check of `update_wip_message`. -/
def isWsChar (c : Char) : Bool :=
  c == ' ' || c == '\n' || c == '\t' || c == '\r'

/-- Separator characters relevant to the chunker: words are delimited by
spaces and newlines (the code splits on these two). -/
def isSepChar (c : Char) : Bool :=
  c == ' ' || c == '\n'

/-- Does `s` start with `pat`? -/
def startsWithSeq : Str → Str → Bool
  | [], _ => true
  | _ :: _, [] => false
  | p :: ps, c :: cs => p == c && startsWithSeq ps cs

/-- Does `s` contain `pat` as a contiguous subsequence?  Models Python's
`pat in s`. -/
def containsSeq (pat : Str) : Str → Bool
  | [] => startsWithSeq pat []
  | c :: cs => startsWithSeq pat (c :: cs) || containsSeq pat cs

/-- Does `s` end with `pat`?  Models Python's `s.endswith(pat)`. -/
def endsWithSeq (pat s : Str) : Bool :=
  startsWithSeq pat.reverse s.reverse

/-- The code-fence delimiter three-backtick string. -/
def fenceStr : Str := "```".data

/-- Count of non-overlapping occurrences of the fence delimiter, as
`s.count("```")` does (fueled so that it evaluates in the kernel). -/
def countFencesAux : Nat → Str → Nat
  | _, [] => 0
  | 0, _ :: _ => 0
  | fuel + 1, c :: cs =>
      if startsWithSeq fenceStr (c :: cs) then 1 + countFencesAux fuel (cs.drop 2)
      else countFencesAux fuel cs

/-- Count of non-overlapping fence-delimiter occurrences in a string. -/
def countFences (s : Str) : Nat := countFencesAux s.length s

/-- Split on the characters satisfying `p`, keeping empty pieces, like
Python's `s.split(sep)` for a single separator character. -/
def splitPred (p : Char → Bool) : Str → List Str
  | [] => [[]]
  | c :: cs =>
      match splitPred p cs with
      | [] => [[]]
      | g :: gs => if p c then [] :: g :: gs else (c :: g) :: gs

/-- Join pieces with a single separator character (inverse of `splitPred`
for a single-character separator). -/
def joinChar (c : Char) : List Str → Str
  | [] => []
  | [g] => g
  | g :: g' :: gs => g ++ c :: joinChar c (g' :: gs)

/-- The space/newline-delimited words of a string (nonempty maximal runs of
non-separator characters). -/
def tokens (s : Str) : List Str :=
  (splitPred isSepChar s).filter (fun t => !t.isEmpty)

/-- Word path of `split_long_message`: greedily pack the space-separated
words into lines of at most `max_length` encoded bytes.  Faithful to

    for word in words:
        test_line = current_line + " " + word if current_line else word
        if len(test_line.encode("utf-8")) <= max_length:
            current_line = test_line
        else:
            if current_line:
                lines.append(current_line)
            current_line = word
    if current_line:
        lines.append(current_line)
-/
def groupWords (maxLength : Nat) (curr : Str) : List Str → List Str
  | [] => if curr.isEmpty then [] else [curr]
  | w :: ws =>
      let test := if curr.isEmpty then w else curr ++ ' ' :: w
      if utf8Len test ≤ maxLength then groupWords maxLength test ws
      else if curr.isEmpty then groupWords maxLength w ws
      else curr :: groupWords maxLength w ws

/-- Longest prefix of whole code points whose encoded byte length fits
`budget`, plus the remainder.  This is what the backward probe
`while end > start: try: decode(text_bytes[start:end]) ... end -= 1`
computes when `start` sits on a code-point boundary. -/
def takeFit : Nat → Str → Str × Str
  | _, [] => ([], [])
  | budget, c :: cs =>
      if c.utf8Size ≤ budget then
        let pr := takeFit (budget - c.utf8Size) cs
        (c :: pr.1, pr.2)
      else ([], c :: cs)

/-- Byte path of `split_long_message` (text with neither newline nor
space): repeatedly cut off a budget-sized piece.  When a piece would be
empty the Python loop never advances `start` and diverges; that case is
`none`.  The fuel is the number of remaining characters, which suffices
because every successful step consumes at least one character. -/
def byteSplit (budget : Nat) : Nat → Str → Option (List Str)
  | _, [] => some []
  | 0, _ :: _ => none
  | fuel + 1, c :: cs =>
      let pr := takeFit budget (c :: cs)
      if pr.1.isEmpty then none
      else
        match byteSplit budget fuel pr.2 with
        | none => none
        | some ls => some (pr.1 :: ls)

/-- The `lines` list `split_long_message` builds before the packing loop:
split on newlines when present, else greedily group the space-separated
words, else cut byte-budget pieces (budget `max_length - 6`). -/
def splitLongMessageLines (maxLength : Nat) (text : Str) : Option (List Str) :=
  if text.contains '\n' then some (splitPred (fun c => c == '\n') text)
  else if text.contains ' ' then
    some (groupWords maxLength [] (splitPred (fun c => c == ' ') text))
  else byteSplit (maxLength - 6) text.length text

/-- State of the packing loop of `split_long_message`: emitted chunks, the
running chunk, and the inside-fenced-code-block flag. -/
structure ChunkState where
  chunks : List Str
  curr : Str
  inCode : Bool
  deriving DecidableEq, Repr

/-- One iteration of the packing loop of `split_long_message`, for the line
at index `i`.  In the source, after a chunk is emitted `current_chunk` is
the empty string, so of

    current_chunk += "\n```\n" + line if current_chunk else "```\n" + line

only the second arm is live, and in

    current_chunk += line if not current_chunk or current_chunk == "..." else "\n" + line

only the first arm is live; the dead arms are omitted here. -/
def chunkStep (maxLength : Nat) (st : ChunkState) (i : Nat) (line : Str) : ChunkState :=
  let inCode := if containsSeq fenceStr line then !st.inCode else st.inCode
  let sep : Str := if !st.curr.isEmpty && decide (0 < i) then ['\n'] else []
  let test := st.curr ++ sep ++ line
  if decide (maxLength < utf8Len test) && !st.curr.isEmpty then
    let closed := if inCode then st.curr ++ '\n' :: fenceStr else st.curr
    let nextCurr := if inCode then fenceStr ++ '\n' :: line else line
    { chunks := st.chunks ++ [closed], curr := nextCurr, inCode := inCode }
  else
    { chunks := st.chunks, curr := test, inCode := inCode }

/-- The packing loop of `split_long_message` over the line list. -/
def chunkLoop (maxLength : Nat) : List Str → Nat → ChunkState → ChunkState
  | [], _, st => st
  | l :: ls, i, st => chunkLoop maxLength ls (i + 1) (chunkStep maxLength st i l)

/-- `split_long_message(text, max_length)`.  Returns `none` exactly when
the source diverges (byte path whose budget cannot fit the first code
point); otherwise `some` of the returned chunk list. -/
def splitLongMessage (text : Str) (maxLength : Nat) : Option (List Str) :=
  if utf8Len text ≤ maxLength then some [text]
  else
    match splitLongMessageLines maxLength text with
    | none => none
    | some lines =>
        let st := chunkLoop maxLength lines 0 { chunks := [], curr := [], inCode := false }
        some (if st.curr.isEmpty then st.chunks else st.chunks ++ [st.curr])

/-
Conversation edit tracker (`_chunk_messages_cache` and `_cleanup_cache`).
The `OrderedDict` is modelled as an association list in insertion/recency
order (head = oldest, tail = most recently inserted/moved); keys are unique
in every state the module itself produces.
-/

abbrev CacheKey := String × String

/-- One tracked conversation: ordered chunk-message timestamps plus the
time of the last touch (the `thread_lock` field is not modelled). -/
structure CacheEntry where
  timestamps : List String
  lastUpdated : Int
  deriving DecidableEq, Repr

abbrev Cache := List (CacheKey × CacheEntry)

/-- Association-list lookup (first match), modelling Python dict
indexing. -/
def lookupBy {α β : Type} [DecidableEq α] : List (α × β) → α → Option β
  | [], _ => none
  | p :: rest, k => if p.1 = k then some p.2 else lookupBy rest k

/-- First entry for `k`, like `_chunk_messages_cache[key]`. -/
def cacheLookup (cache : Cache) (k : CacheKey) : Option CacheEntry :=
  lookupBy cache k

/-- `del _chunk_messages_cache[key]` (no-op when absent, matching the
guarded deletes in the source). -/
def cacheDelete (k : CacheKey) (cache : Cache) : Cache :=
  cache.filter (fun p => decide (p.1 ≠ k))

/-- In-place mutation of the entry stored under `k` (position preserved),
like `_chunk_messages_cache[key]["field"] = ...`. -/
def mapEntry (k : CacheKey) (f : CacheEntry → CacheEntry) (cache : Cache) : Cache :=
  cache.map (fun p => if p.1 = k then (p.1, f p.2) else p)

/-- `OrderedDict.move_to_end(key)`: the entry moves to the most recent
position.  The source only calls it on present keys; absent keys are a
no-op here. -/
def moveToEnd (k : CacheKey) (cache : Cache) : Cache :=
  match cacheLookup cache k with
  | none => cache
  | some e => cache.filter (fun p => decide (p.1 ≠ k)) ++ [(k, e)]

/-- `_CACHE_TTL_SECONDS`. -/
def cacheTtlSeconds : Int := 300

/-- `_CACHE_MAX_SIZE`. -/
def cacheMaxSize : Nat := 100

/-- `_cleanup_cache()` with the TTL and capacity as parameters: first every
entry with `now - last_updated > ttl` is removed (the source collects such
keys and deletes them), then `while len(cache) > max_size:
popitem(last=False)` removes entries from the head, i.e. the first
`len - max_size` entries are dropped. -/
def cleanupCacheWith (ttl : Int) (maxSize : Nat) (now : Int) (cache : Cache) : Cache :=
  let kept := cache.filter (fun p => decide (now - p.2.lastUpdated ≤ ttl))
  kept.drop (kept.length - maxSize)

/-- `_cleanup_cache()` at the module constants. -/
def cleanupCache (cache : Cache) (now : Int) : Cache :=
  cleanupCacheWith cacheTtlSeconds cacheMaxSize now cache

/-
The Slack side: messages, metadata, and the two operations the module
performs against the client.
-/

/-- A role-tagged conversation message (elements of the `messages`
argument). -/
structure RoleMsg where
  role : String
  content : String
  deriving DecidableEq, Repr

/-- The metadata payload attached to posts/updates:
`{"event_type": ..., "event_payload": {"messages": ..., "user": ...}}`. -/
structure MsgMeta where
  eventType : String
  messages : List RoleMsg
  user : String
  deriving DecidableEq, Repr

/-- A message as stored in Slack: its current text and metadata. -/
structure PostedMsg where
  text : Str
  metadata : Option MsgMeta
  deriving DecidableEq, Repr

/-- A record of one outgoing client call (what was sent downstream). -/
inductive ApiCall where
  | update : String → String → Str → Option MsgMeta → ApiCall
  | post : String → String → Str → Option MsgMeta → ApiCall
  deriving DecidableEq, Repr

/-- Whole mutable state: Slack messages keyed by (channel, ts), a counter
for fresh timestamps, the module cache, and the append-only call log. -/
structure World where
  msgs : List ((String × String) × PostedMsg)
  nextTs : Nat
  cache : Cache
  log : List ApiCall
  deriving DecidableEq, Repr

/-- Fresh timestamp for the `n`-th posted message. -/
def mkTs (n : Nat) : String := "t" ++ toString n

/-- Effect of `chat_update` on one stored message: the addressed message
gets the new text and metadata, every other message is untouched. -/
def updMsg (target : String × String) (text : Str) (meta : Option MsgMeta)
    (p : (String × String) × PostedMsg) : (String × String) × PostedMsg :=
  if p.1 = target then (p.1, { text := text, metadata := meta }) else p

/-- `client.chat_update(channel, ts, text, metadata)`: replaces text and
metadata of the addressed message. -/
def chatUpdate (channel mts : String) (text : Str) (meta : Option MsgMeta) (w : World) : World :=
  { w with
      msgs := w.msgs.map (updMsg (channel, mts) text meta),
      log := w.log ++ [ApiCall.update channel mts text meta] }

/-- `client.chat_postMessage(channel, thread_ts, text, metadata?)`: appends
a fresh message and returns its timestamp (`response["ts"]`). -/
def chatPost (channel threadTs : String) (text : Str) (meta : Option MsgMeta) (w : World) : World × String :=
  let newTs := mkTs w.nextTs
  ({ w with
      msgs := w.msgs ++ [((channel, newTs), { text := text, metadata := meta })],
      nextTs := w.nextTs + 1,
      log := w.log ++ [ApiCall.post channel threadTs text meta] }, newTs)

/-- The message currently stored under a (channel, ts) key. -/
def msgLookup (w : World) (k : String × String) : Option PostedMsg :=
  lookupBy w.msgs k

def sysRole : String := "system"

/-- `[msg for msg in messages if msg["role"] == "system"]`. -/
def sysOf (messages : List RoleMsg) : List RoleMsg :=
  messages.filter (fun m => m.role == sysRole)

def eventTypeName : String := "chat-gpt-convo"

/-- The metadata payload both functions attach to posts/updates. -/
def wipMeta (messages : List RoleMsg) (user : String) : MsgMeta :=
  { eventType := eventTypeName, messages := sysOf messages, user := user }

/-- The substitute text for empty input:
`":hourglass_flowing_sand: Processing..."`. -/
def procPlaceholder : Str := ":hourglass_flowing_sand: Processing...".data

def hourglassSeq : Str := ":hourglass_flowing_sand:".data

def waveSeq : Str := ":wave:".data

/-- `if not text or not text.strip(): text = ":hourglass_flowing_sand:
Processing..."` (an empty string trivially satisfies `all`). -/
def procText (t : Str) : Str :=
  if t.all isWsChar then procPlaceholder else t

/-- `not text.endswith(":hourglass_flowing_sand:") and not
text.endswith(":wave:")`: the update is considered final. -/
def isCompleteText (t : Str) : Bool :=
  !endsWithSeq hourglassSeq t && !endsWithSeq waveSeq t

/-- The timestamps list tracked for a key (the source indexes the entry
directly; entries made by this module always exist and are nonempty at the
use sites). -/
def entryTimestamps (cache : Cache) (k : CacheKey) : List String :=
  ((cacheLookup cache k).map (fun e => e.timestamps)).getD []

/-- `post_wip_message(...)`: filter system messages, drop any cached entry
for this conversation, run `_cleanup_cache()`, then post the placeholder
with metadata attached. -/
def postWipMessage (w : World) (channel threadTs : String) (loadingText : Str)
    (messages : List RoleMsg) (user : String) (now : Int) : World × String :=
  let cache := cacheDelete (channel, threadTs) w.cache
  let cache := cleanupCache cache now
  chatPost channel threadTs loadingText (some (wipMeta messages user)) { w with cache := cache }

/-- Get-or-create of the cache entry in `update_wip_message`:
`if cache_key not in _chunk_messages_cache: ... = {"timestamps": [ts], ...}`
(new entries are appended at the recency tail). -/
def wipEnsured (cache : Cache) (key : CacheKey) (ts : String) (now : Int) : Cache :=
  if (cacheLookup cache key).isSome then cache
  else cache ++ [(key, { timestamps := [ts], lastUpdated := now })]

/-- `move_to_end(cache_key)` followed by
`_chunk_messages_cache[cache_key]["last_updated"] = time.time()`. -/
def wipTouched (cache : Cache) (key : CacheKey) (now : Int) : Cache :=
  mapEntry key (fun e => { e with lastUpdated := now }) (moveToEnd key cache)

/-- The send phase of `update_wip_message`: when fewer timestamps are
tracked than chunks exist, the currently-last message is updated with the
second-to-last chunk (with metadata) and the last chunk is posted as a new
message without metadata, whose timestamp is appended; otherwise the last
tracked message is updated with the last chunk (with metadata). -/
def updateWipSend (w : World) (channel ts : String) (key : CacheKey)
    (chunks : List Str) (tss : List String) (meta : MsgMeta) : World × String :=
  if tss.length < chunks.length then
    let w1 := chatUpdate channel (tss.getLastD ts) (chunks.getD (chunks.length - 2) []) (some meta) w
    let pr := chatPost channel ts (chunks.getLastD []) none w1
    ({ pr.1 with
        cache := mapEntry key (fun e => { e with timestamps := e.timestamps ++ [pr.2] }) pr.1.cache },
      pr.2)
  else
    (chatUpdate channel (tss.getLastD ts) (chunks.getLastD []) (some meta) w, tss.getLastD ts)

/-- The cache effect of the tail of `update_wip_message`: completed
renders get their entry's `last_updated` moved back so it expires after a
30-second grace window, and when more than half the capacity is occupied
`_cleanup_cache()` runs. -/
def finishCache (cache : Cache) (key : CacheKey) (text : Str) (now : Int) : Cache :=
  let cache1 :=
    if isCompleteText text then
      mapEntry key (fun e => { e with lastUpdated := now - cacheTtlSeconds + 30 }) cache
    else cache
  if cacheMaxSize / 2 < cache1.length then cleanupCache cache1 now else cache1

/-- The tail of `update_wip_message`; only the cache is affected. -/
def updateWipFinish (w : World) (key : CacheKey) (text : Str) (now : Int) : World :=
  { w with cache := finishCache w.cache key text now }

/-- `update_wip_message` after the chunk list has been computed. -/
def updateWipCore (w : World) (channel ts : String) (text : Str) (chunks : List Str)
    (messages : List RoleMsg) (user : String) (now : Int) : World × String :=
  let key : CacheKey := (channel, ts)
  let cache := wipTouched (wipEnsured w.cache key ts now) key now
  let tss := entryTimestamps cache key
  let pr := updateWipSend { w with cache := cache } channel ts key chunks tss (wipMeta messages user)
  (updateWipFinish pr.1 key text now, pr.2)

/-- `update_wip_message(client, channel, ts, text, messages, user)`.  The
`none` branch of the split (the byte path looping forever) cannot occur at
`max_length = 4000`, since the per-slice budget exceeds every UTF-8
code-point width. -/
def updateWipMessage (w : World) (channel ts : String) (text0 : Str)
    (messages : List RoleMsg) (user : String) (now : Int) : World × String :=
  let text := procText text0
  match splitLongMessage text 4000 with
  | none => (w, ts)
  | some chunks => updateWipCore w channel ts text chunks messages user now

/-
Concrete data used by counterexamples and witnesses.
-/

def chanC : String := "C"

def tsRoot : String := "1"

def tsNine : String := "9"

def userU : String := "U"

def noStr : String := ""

def hiText : Str := "hi".data

def rootText : Str := "root".data

def oldText : Str := "old".data

/-- C1 counterexample input: every newline-separated line fits in 10
bytes, but the synthetic fences push a chunk past the limit. -/
def c1text : Str := "```\naaaaaaaa\nb".data

/-- C2 failing input: the text ends inside an open code fence and the
fence-opening line is displaced into the next chunk. -/
def c2text : Str := "aaaaaaaa\n```\nbbb".data

/-- C7 counterexample input: a single 10-byte word with no spaces or
newlines, split by the byte path at `max_bytes = 7`. -/
def c7text : Str := List.replicate 10 'a'

/-- C8 counterexample input: whitespace-only but longer than the limit. -/
def c8text : Str := "   \n\n   ".data

/-- C5 counterexample world: one cached conversation, last touched at time
0, with two chunk messages already tracked. -/
def w5 : World :=
  { msgs := [((chanC, tsRoot), { text := rootText, metadata := none }),
             ((chanC, tsNine), { text := oldText, metadata := none })],
    nextTs := 0,
    cache := [((chanC, tsRoot), { timestamps := [tsRoot, tsNine], lastUpdated := 0 })],
    log := [] }

/-- A 4000-byte line of `a`s (each chunk of the big inputs below). -/
def lineA : Str := List.replicate 4000 'a'

/-- A 4000-byte line of `b`s. -/
def lineB : Str := List.replicate 4000 'b'

/-- A 12002-byte text that `split_long_message` cuts into three 4000-byte
chunks at the default `max_length = 4000`. -/
def bigText3 : Str := lineA ++ ('\n' :: (lineA ++ ('\n' :: lineA)))

/-- An 8001-byte text that yields exactly two 4000-byte chunks. -/
def bigText2 : Str := lineA ++ ('\n' :: lineB)

/-- World holding just the root placeholder message, with an empty cache
(the state right after `post_wip_message`). -/
def wBig : World :=
  { msgs := [((chanC, tsRoot), { text := [], metadata := none })],
    nextTs := 0, cache := [], log := [] }

/-- A messages list with one system entry and one user entry. -/
def sysMsgs : List RoleMsg :=
  [{ role := "system", content := "s" }, { role := "user", content := "u" }]

/-- First `update_wip_message` call on the three-chunk text. -/
def c4run1 : World × String := updateWipMessage wBig chanC tsRoot bigText3 [] userU 100

/-- Second, identical `update_wip_message` call. -/
def c4run2 : World × String := updateWipMessage c4run1.1 chanC tsRoot bigText3 [] userU 100

/-- One `update_wip_message` call on the two-chunk text, which posts a
continuation message. -/
def c9run : World × String := updateWipMessage wBig chanC tsRoot bigText2 sysMsgs userU 100

/-- 101 distinct fresh cache entries (used to exercise capacity
eviction). -/
def bigCache : Cache :=
  (List.range 101).map (fun i => ((toString i, noStr), { timestamps := [], lastUpdated := 0 }))

/-- The key of the sixth entry of `bigCache`. -/
def keyFive : CacheKey := (toString 5, noStr)

/-- Small word-path input used by the amended-C7 witness. -/
def c7wText : Str := "aa bb".data

/-- A fresh entry touched at time 0. -/
def entryZero : CacheEntry := { timestamps := [], lastUpdated := 0 }

/-- Small two-line input used by the amended-C1 witness. -/
def c1wText : Str := "ab\ncd".data

/-- A one-entry cache. -/
def oneCache : Cache := [((chanC, tsRoot), entryZero)]

/-- The tracker entry of `key` sits at the recency tail, with no other copy
of the key in front of it. -/
def KeyAtEnd (cache : Cache) (k : CacheKey) (e : CacheEntry) : Prop :=
  ∃ front, cache = front ++ [(k, e)] ∧ ∀ p ∈ front, p.1 ≠ k

/-- The timestamps list `update_wip_message` works with after the
get-or-create and touch steps. -/
def wipTss (cache : Cache) (key : CacheKey) (ts : String) (now : Int) : List String :=
  entryTimestamps (wipTouched (wipEnsured cache key ts now) key now) key

/-- The metadata payload of the big-text runs, which carry no system
messages. -/
def meta0 : MsgMeta := wipMeta [] userU

/-- The metadata payload of the run that carries a system message. -/
def meta9 : MsgMeta := wipMeta sysMsgs userU

/-- The tracker entry after the first big-text update call: the root id
plus one continuation id, re-stamped to `100 - 300 + 30` by the completion
grace window. -/
def entry1 : CacheEntry := { timestamps := [tsRoot, mkTs 0], lastUpdated := -170 }

/-- The tracker entry after the second, identical update call: one more
continuation id was appended. -/
def entry2 : CacheEntry := { timestamps := [tsRoot, mkTs 0, mkTs 1], lastUpdated := -170 }

/-- The full state after the first `update_wip_message` call on the
three-chunk text. -/
def w4r1 : World :=
  { msgs := [((chanC, tsRoot), { text := lineA, metadata := some meta0 }),
             ((chanC, mkTs 0), { text := lineA, metadata := none })],
    nextTs := 1,
    cache := [((chanC, tsRoot), entry1)],
    log := [ApiCall.update chanC tsRoot lineA (some meta0),
            ApiCall.post chanC tsRoot lineA none] }

/-- The full state after the second, identical `update_wip_message` call:
a further continuation message was posted. -/
def w4r2 : World :=
  { msgs := [((chanC, tsRoot), { text := lineA, metadata := some meta0 }),
             ((chanC, mkTs 0), { text := lineA, metadata := some meta0 }),
             ((chanC, mkTs 1), { text := lineA, metadata := none })],
    nextTs := 2,
    cache := [((chanC, tsRoot), entry2)],
    log := [ApiCall.update chanC tsRoot lineA (some meta0),
            ApiCall.post chanC tsRoot lineA none,
            ApiCall.update chanC (mkTs 0) lineA (some meta0),
            ApiCall.post chanC tsRoot lineA none] }

/-- The full state after the two-chunk update call that carries a system
message: the root message holds the first chunk with metadata, the
continuation message holds the second chunk without metadata. -/
def w9r : World :=
  { msgs := [((chanC, tsRoot), { text := lineA, metadata := some meta9 }),
             ((chanC, mkTs 0), { text := lineB, metadata := none })],
    nextTs := 1,
    cache := [((chanC, tsRoot), entry1)],
    log := [ApiCall.update chanC tsRoot lineA (some meta9),
            ApiCall.post chanC tsRoot lineB none] }

/-
Theorems.  First a bank of shared lemmas, then one theorem per claim (with
witnesses for theorems that carry hypotheses, and counterexamples for the
claims the code refutes).
-/

/-- The cleanup result is a sub-list of its input. -/
theorem cleanupCacheWith_sublist (ttl : Int) (maxSize : Nat) (now : Int) (cache : Cache) :
    (cleanupCacheWith ttl maxSize now cache).Sublist cache := by
  unfold cleanupCacheWith
  exact (List.drop_sublist _ _).trans (List.filter_sublist _)

/-- A lookup misses when no stored key matches. -/
theorem lookupBy_eq_none {α β : Type} [DecidableEq α] :
    ∀ (l : List (α × β)) (k : α), (∀ p ∈ l, p.1 ≠ k) → lookupBy l k = none := by
  intro l
  induction l with
  | nil => intro k _; rfl
  | cons p rest ih =>
      intro k h
      unfold lookupBy
      rw [if_neg (h p (List.mem_cons_self p rest))]
      exact ih k (fun q hq => h q (List.mem_cons_of_mem p hq))

/-- Keys absent from a cache stay absent after deletion plus cleanup. -/
theorem cacheLookup_cleanup_delete (k : CacheKey) (cache : Cache) (now : Int) :
    cacheLookup (cleanupCache (cacheDelete k cache) now) k = none := by
  apply lookupBy_eq_none
  intro p hp
  have hp' : p ∈ cacheDelete k cache :=
    (cleanupCacheWith_sublist cacheTtlSeconds cacheMaxSize now _).subset hp
  have hne : decide (p.1 ≠ k) = true := (List.mem_filter.mp hp').2
  simpa using of_decide_eq_true hne

/-- C10: every call to `post_wip_message` removes any registry entry for
its (channel, thread_ts) key before posting the placeholder, so the key is
absent from the cache of the resulting state: a conversation restarted in
the same thread starts with no stale chunk message ids. -/
theorem postWipMessage_clears_cache_entry (w : World) (channel threadTs : String)
    (loadingText : Str) (messages : List RoleMsg) (user : String) (now : Int) :
    cacheLookup (postWipMessage w channel threadTs loadingText messages user now).1.cache
      (channel, threadTs) = none := by
  show cacheLookup (cleanupCache (cacheDelete (channel, threadTs) w.cache) now) _ = none
  exact cacheLookup_cleanup_delete _ _ _

/-- C3: any text whose UTF-8 byte length is at most `max_length` is
returned unchanged as the one-element chunk list (in particular the empty
string, whose length 0 is below every limit). -/
theorem splitLongMessage_short_identity (text : Str) (maxLength : Nat)
    (h : utf8Len text ≤ maxLength) :
    splitLongMessage text maxLength = some [text] := by
  unfold splitLongMessage
  simp [h]

/-- Witness for C3 at a concrete short input (and the empty string). -/
theorem splitLongMessage_short_identity_witness :
    (utf8Len hiText ≤ 4000 ∧ splitLongMessage hiText 4000 = some [hiText]) ∧
      (utf8Len [] ≤ 4000 ∧ splitLongMessage [] 4000 = some [([] : Str)]) :=
  ⟨⟨by decide, splitLongMessage_short_identity hiText 4000 (by decide)⟩,
    ⟨by decide, splitLongMessage_short_identity [] 4000 (by decide)⟩⟩

/-- C8 counterexample: a whitespace-only text longer than the limit is not
returned verbatim as a single chunk; the source splits it into two chunks
and drops the blank middle lines. -/
theorem whitespace_long_not_verbatim :
    c8text.all isWsChar = true ∧ 2 < utf8Len c8text ∧
      splitLongMessage c8text 2 = some ["   ".data, "   ".data] ∧
      splitLongMessage c8text 2 ≠ some [c8text] := by decide

/-- C8 (amended): a whitespace-only input is returned verbatim as a single
chunk when its encoded byte length is at most `max_length` (the claim's
unrestricted version fails for longer whitespace-only inputs, see the
counterexample). -/
theorem whitespace_only_short_verbatim (text : Str) (maxLength : Nat)
    (_hws : text.all isWsChar = true) (h : utf8Len text ≤ maxLength) :
    splitLongMessage text maxLength = some [text] := by
  unfold splitLongMessage
  simp [h]

/-- Witness for the amended C8 at the repository test's own input. -/
theorem whitespace_only_short_verbatim_witness :
    c8text.all isWsChar = true ∧ utf8Len c8text ≤ 4000 ∧
      splitLongMessage c8text 4000 = some [c8text] :=
  ⟨by decide, by decide, whitespace_only_short_verbatim c8text 4000 (by decide) (by decide)⟩

/-- C1 counterexample: at `max_bytes = 10` every newline-separated line of
`c1text` fits in 10 bytes (so no unbreakable unit exceeds the limit), yet
a chunk of 16 bytes is emitted, because the synthetic opening fence was
prepended and the synthetic closing fence appended to it. -/
theorem chunk_exceeds_max_bytes_counterexample :
    (∀ l ∈ splitPred (fun c => c == '\n') c1text, utf8Len l ≤ 10) ∧
      (∃ ch ∈ (splitLongMessage c1text 10).getD [], 10 < utf8Len ch) := by decide

/-- C2 evaluation at the failing input: the source emits chunks whose
fence-delimiter counts are 1, 3 and 1 — all odd — although every line of
the input fits the limit; the repository's own test
(`test_code_block_preservation`) asserts that every chunk has an even
fence count. -/
theorem odd_fence_chunks_eval :
    splitLongMessage c2text 10 =
        some ["aaaaaaaa\n```".data, "```\n```\n```".data, "```\nbbb".data] ∧
      (∀ ch ∈ (splitLongMessage c2text 10).getD [], countFences ch % 2 = 1) := by decide

/-- C7 counterexample: a spaceless, newline-less 10-byte word is split by
the byte path at `max_bytes = 7`; the word is even interleaved with
synthetic newlines inside the chunks, so it appears in no chunk's word
list. -/
theorem word_split_counterexample :
    tokens c7text = [c7text] ∧
      splitLongMessage c7text 7 =
        some ["a\na\na\na".data, "a\na\na\na".data, "a\na".data] ∧
      (∃ w ∈ tokens c7text, w ∉ ((splitLongMessage c7text 7).getD []).flatMap tokens) := by
  decide

/-- C5 counterexample: the entry of `w5` was last touched at time 0 and the
update arrives at time 1000, far beyond the 300-second TTL, yet
`update_wip_message` reuses the expired entry: the tracked chunk ids stay
`["1", "9"]` and the stale last chunk message `"9"` is updated instead of
the conversation being treated as fresh (which would update the root
`"1"`). -/
theorem expired_entry_reused_counterexample :
    cacheTtlSeconds < (1000 : Int) - 0 ∧
      entryTimestamps (updateWipMessage w5 chanC tsRoot hiText [] userU 1000).1.cache
          (chanC, tsRoot) = [tsRoot, tsNine] ∧
      msgLookup (updateWipMessage w5 chanC tsRoot hiText [] userU 1000).1 (chanC, tsNine) =
        some { text := hiText, metadata := some (wipMeta [] userU) } ∧
      msgLookup (updateWipMessage w5 chanC tsRoot hiText [] userU 1000).1 (chanC, tsRoot) =
        some { text := rootText, metadata := none } := by decide

/-- C5 (amended): `_cleanup_cache` itself does remove every expired entry —
whatever survives a cleanup run was touched within the TTL.  (Lookups in
`update_wip_message` do not check the TTL, so between cleanup runs an
expired entry is still reused; see the counterexample.) -/
theorem cleanup_removes_expired (ttl : Int) (maxSize : Nat) (now : Int) (cache : Cache)
    (k : CacheKey) (e : CacheEntry) (h : (k, e) ∈ cleanupCacheWith ttl maxSize now cache) :
    now - e.lastUpdated ≤ ttl := by
  unfold cleanupCacheWith at h
  have h' := ((List.drop_sublist _ _).subset h)
  have hkeep := (List.mem_filter.mp h').2
  simpa using of_decide_eq_true hkeep

/-- Witness for the amended C5 at a concrete surviving entry. -/
theorem cleanup_removes_expired_witness :
    ((chanC, tsRoot), entryZero) ∈ cleanupCacheWith 300 100 50 oneCache ∧
      (50 : Int) - entryZero.lastUpdated ≤ 300 :=
  ⟨by decide, cleanup_removes_expired 300 100 50 oneCache (chanC, tsRoot) entryZero (by decide)⟩

/-- Byte length distributes over concatenation. -/
theorem utf8Len_append (a b : Str) : utf8Len (a ++ b) = utf8Len a + utf8Len b := by
  induction a with
  | nil => simp [utf8Len]
  | cons c cs ih => simp [utf8Len, ih, Nat.add_assoc]

/-- Every line built by the word-grouping path fits the byte limit, as
long as every word and the running line do. -/
theorem groupWords_bound (maxLength : Nat) :
    ∀ (ws : List Str) (curr : Str), utf8Len curr ≤ maxLength →
      (∀ w ∈ ws, utf8Len w ≤ maxLength) →
      ∀ g ∈ groupWords maxLength curr ws, utf8Len g ≤ maxLength := by
  intro ws
  induction ws with
  | nil =>
      intro curr hc _ g hg
      unfold groupWords at hg
      by_cases he : curr.isEmpty
      · rw [if_pos he] at hg
        exact absurd hg (List.not_mem_nil g)
      · rw [if_neg he] at hg
        rw [List.mem_singleton] at hg
        subst hg
        exact hc
  | cons w ws ih =>
      intro curr hc hws g hg
      have hwb : utf8Len w ≤ maxLength := hws w (List.mem_cons_self w ws)
      have hws' : ∀ x ∈ ws, utf8Len x ≤ maxLength := fun x hx => hws x (List.mem_cons_of_mem w hx)
      unfold groupWords at hg
      by_cases ht : utf8Len (if curr.isEmpty then w else curr ++ ' ' :: w) ≤ maxLength
      · rw [if_pos ht] at hg
        exact ih _ ht hws' g hg
      · rw [if_neg ht] at hg
        by_cases he : curr.isEmpty
        · rw [if_pos he] at hg
          exact ih _ hwb hws' g hg
        · rw [if_neg he] at hg
          rcases List.mem_cons.mp hg with hg | hg
          · simpa [hg] using hc
          · exact ih _ hwb hws' g hg

/-- The prefix cut off by `takeFit` fits its budget. -/
theorem takeFit_fst_bound : ∀ (l : Str) (b : Nat), utf8Len (takeFit b l).1 ≤ b := by
  intro l
  induction l with
  | nil => intro b; simp [takeFit, utf8Len]
  | cons c cs ih =>
      intro b
      unfold takeFit
      by_cases h : c.utf8Size ≤ b
      · simp only [h, if_pos]
        have := ih (b - c.utf8Size)
        simp [utf8Len]
        omega
      · simp [h, utf8Len]

/-- Every piece produced by the byte path fits the budget. -/
theorem byteSplit_bound : ∀ (fuel : Nat) (l : Str) (b : Nat) (ls : List Str),
    byteSplit b fuel l = some ls → ∀ p ∈ ls, utf8Len p ≤ b := by
  intro fuel
  induction fuel with
  | zero =>
      intro l b ls h p hp
      cases l with
      | nil =>
          simp [byteSplit] at h
          subst h
          exact absurd hp (List.not_mem_nil p)
      | cons c cs => simp [byteSplit] at h
  | succ fuel ih =>
      intro l b ls h p hp
      cases l with
      | nil =>
          simp [byteSplit] at h
          subst h
          exact absurd hp (List.not_mem_nil p)
      | cons c cs =>
          unfold byteSplit at h
          by_cases he : (takeFit b (c :: cs)).1.isEmpty
          · simp [he] at h
          · simp only [he, if_neg, Bool.false_eq_true, not_false_eq_true, if_false] at h
            cases hrec : byteSplit b fuel (takeFit b (c :: cs)).2 with
            | none => rw [hrec] at h; simp at h
            | some ls' =>
                rw [hrec] at h
                simp at h
                subst h
                rcases List.mem_cons.mp hp with hp | hp
                · simpa [hp] using takeFit_fst_bound (c :: cs) b
                · exact ih _ b ls' hrec p hp

/-- All lines fed into the packing loop fit the limit, provided the
newline-separated lines (resp. the space-separated words) of the text
do. -/
theorem splitLongMessageLines_bound (maxLength : Nat) (text : Str) (lines : List Str)
    (h : splitLongMessageLines maxLength text = some lines)
    (h1 : text.contains '\n' = true →
      ∀ l ∈ splitPred (fun c => c == '\n') text, utf8Len l ≤ maxLength)
    (h2 : text.contains '\n' = false → text.contains ' ' = true →
      ∀ w ∈ splitPred (fun c => c == ' ') text, utf8Len w ≤ maxLength) :
    ∀ l ∈ lines, utf8Len l ≤ maxLength := by
  unfold splitLongMessageLines at h
  by_cases hnl : text.contains '\n'
  · rw [if_pos hnl] at h
    cases h
    exact h1 hnl
  · rw [if_neg hnl] at h
    by_cases hsp : text.contains ' '
    · rw [if_pos hsp] at h
      cases h
      exact groupWords_bound maxLength _ [] (by simp [utf8Len])
        (h2 (by simpa using hnl) hsp)
    · rw [if_neg hsp] at h
      intro l hl
      have := byteSplit_bound text.length text (maxLength - 6) lines h l hl
      omega

/-- One packing step keeps the running chunk within `max + 4` bytes and
every emitted chunk within `max + 8` bytes (4 bytes for a prepended
opening fence, 4 more for an appended closing fence). -/
theorem chunkStep_bound (maxLength i : Nat) (st : ChunkState) (l : Str)
    (hl : utf8Len l ≤ maxLength) (hcur : utf8Len st.curr ≤ maxLength + 4)
    (hch : ∀ c ∈ st.chunks, utf8Len c ≤ maxLength + 8) :
    utf8Len (chunkStep maxLength st i l).curr ≤ maxLength + 4 ∧
      ∀ c ∈ (chunkStep maxLength st i l).chunks, utf8Len c ≤ maxLength + 8 := by
  have hclose : utf8Len (st.curr ++ '\n' :: fenceStr) = utf8Len st.curr + 4 := by
    rw [utf8Len_append, show utf8Len ('\n' :: fenceStr) = 4 from by decide]
  have hreopen : utf8Len (fenceStr ++ '\n' :: l) = 4 + utf8Len l := by
    rw [show fenceStr ++ '\n' :: l = (fenceStr ++ ['\n']) ++ l from by simp,
      utf8Len_append, show utf8Len (fenceStr ++ ['\n']) = 4 from by decide]
  unfold chunkStep
  dsimp only
  by_cases hcond :
      (decide (maxLength < utf8Len
          (st.curr ++ (if !st.curr.isEmpty && decide (0 < i) then ['\n'] else []) ++ l)) &&
        !st.curr.isEmpty) = true
  · rw [if_pos hcond]
    dsimp only
    constructor
    · by_cases hin : (if containsSeq fenceStr l then !st.inCode else st.inCode) = true
      · rw [if_pos hin, hreopen]
        omega
      · rw [if_neg hin]
        omega
    · intro c hc
      rcases List.mem_append.mp hc with hc | hc
      · exact hch c hc
      · rw [List.mem_singleton] at hc
        subst hc
        by_cases hin : (if containsSeq fenceStr l then !st.inCode else st.inCode) = true
        · rw [if_pos hin, hclose]
          omega
        · rw [if_neg hin]
          omega
  · rw [if_neg hcond]
    dsimp only
    refine ⟨?_, hch⟩
    by_cases hlt :
        maxLength < utf8Len
          (st.curr ++ (if !st.curr.isEmpty && decide (0 < i) then ['\n'] else []) ++ l)
    · have hemp : st.curr.isEmpty = true := by
        cases hh : st.curr.isEmpty
        · exact absurd (by rw [decide_eq_true hlt, hh]; rfl) hcond
        · rfl
      have hnil : st.curr = [] := List.isEmpty_iff.mp hemp
      rw [hnil]
      simp
      omega
    · omega

/-- The packing loop keeps every chunk within `max + 8` bytes. -/
theorem chunkLoop_bound (maxLength : Nat) :
    ∀ (lines : List Str) (i : Nat) (st : ChunkState),
      (∀ l ∈ lines, utf8Len l ≤ maxLength) →
      utf8Len st.curr ≤ maxLength + 4 →
      (∀ c ∈ st.chunks, utf8Len c ≤ maxLength + 8) →
      (∀ c ∈ (chunkLoop maxLength lines i st).chunks, utf8Len c ≤ maxLength + 8) ∧
        utf8Len (chunkLoop maxLength lines i st).curr ≤ maxLength + 4 := by
  intro lines
  induction lines with
  | nil =>
      intro i st _ hcur hch
      exact ⟨hch, hcur⟩
  | cons l ls ih =>
      intro i st hl hcur hch
      have hstep := chunkStep_bound maxLength i st l (hl l (List.mem_cons_self l ls)) hcur hch
      exact ih (i + 1) (chunkStep maxLength st i l)
        (fun x hx => hl x (List.mem_cons_of_mem l hx)) hstep.1 hstep.2

/-- C1 (amended): whenever `split_long_message` terminates and every
unbreakable unit (newline-separated line, or space-separated word when the
text has no newline) fits in `max_bytes`, every emitted chunk fits in
`max_bytes + 8` — the synthetic fences can push a chunk up to 8 bytes past
the limit (4 for the prepended opening fence and 4 for the appended
closing fence), so the claim's strict `max_bytes` bound fails exactly on
fence-adjusted chunks (see the counterexample) but holds with the 8-byte
allowance. -/
theorem chunk_bytes_le_max_plus_fences (text : Str) (maxLength : Nat) (chunks : List Str)
    (h : splitLongMessage text maxLength = some chunks)
    (h1 : text.contains '\n' = true →
      ∀ l ∈ splitPred (fun c => c == '\n') text, utf8Len l ≤ maxLength)
    (h2 : text.contains '\n' = false → text.contains ' ' = true →
      ∀ w ∈ splitPred (fun c => c == ' ') text, utf8Len w ≤ maxLength) :
    ∀ ch ∈ chunks, utf8Len ch ≤ maxLength + 8 := by
  unfold splitLongMessage at h
  by_cases hshort : utf8Len text ≤ maxLength
  · rw [if_pos hshort] at h
    cases h
    intro ch hch
    have : ch = text := by simpa using hch
    subst this
    omega
  · rw [if_neg hshort] at h
    cases hlines : splitLongMessageLines maxLength text with
    | none => rw [hlines] at h; simp at h
    | some lines =>
        rw [hlines] at h
        simp only [Option.some.injEq] at h
        subst h
        have hlb := splitLongMessageLines_bound maxLength text lines hlines h1 h2
        have hloop := chunkLoop_bound maxLength lines 0
          { chunks := [], curr := [], inCode := false } hlb (by simp [utf8Len]) (by simp)
        intro ch hch
        by_cases he : (chunkLoop maxLength lines 0 { chunks := [], curr := [], inCode := false }).curr.isEmpty
        · rw [if_pos he] at hch
          exact hloop.1 ch hch
        · rw [if_neg he] at hch
          rcases List.mem_append.mp hch with hch | hch
          · exact hloop.1 ch hch
          · have : ch = (chunkLoop maxLength lines 0 { chunks := [], curr := [], inCode := false }).curr := by
              simpa using hch
            subst this
            omega

/-- Witness for the amended C1 on a concrete split. -/
theorem chunk_bytes_le_max_plus_fences_witness :
    splitLongMessage c1wText 3 = some ["ab".data, "cd".data] ∧
      ∀ ch ∈ ["ab".data, "cd".data], utf8Len ch ≤ 3 + 8 :=
  ⟨by decide, chunk_bytes_le_max_plus_fences c1wText 3 ["ab".data, "cd".data]
    (by decide) (by decide) (by decide)⟩

/-- A successful cache lookup returns an entry actually stored under that
key. -/
theorem cacheLookup_mem : ∀ {cache : Cache} {k : CacheKey} {e : CacheEntry},
    cacheLookup cache k = some e → (k, e) ∈ cache := by
  intro cache
  induction cache with
  | nil => intro k e h; simp [cacheLookup, lookupBy] at h
  | cons p rest ih =>
      intro k e h
      unfold cacheLookup lookupBy at h
      by_cases hpk : p.1 = k
      · rw [if_pos hpk] at h
        simp at h
        subst h
        rw [← hpk]
        simp
      · rw [if_neg hpk] at h
        exact List.mem_cons_of_mem p (ih h)

/-- Keys present in the cache have a successful lookup. -/
theorem cacheLookup_isSome_of_mem_keys : ∀ {cache : Cache} {k : CacheKey},
    k ∈ cache.map Prod.fst → (cacheLookup cache k).isSome := by
  intro cache
  induction cache with
  | nil => intro k h; simp at h
  | cons p rest ih =>
      intro k h
      unfold cacheLookup lookupBy
      by_cases hpk : p.1 = k
      · rw [if_pos hpk]
        rfl
      · rw [if_neg hpk]
        rw [List.map_cons] at h
        rcases List.mem_cons.mp h with h | h
        · exact absurd h.symm hpk
        · exact ih h

/-- Deleting a present key shortens the cache by exactly one entry when
keys are unique. -/
theorem length_filter_ne_of_nodup :
    ∀ (cache : Cache) (k : CacheKey), (cache.map Prod.fst).Nodup →
      k ∈ cache.map Prod.fst →
      (cache.filter (fun p => decide (p.1 ≠ k))).length + 1 = cache.length := by
  intro cache
  induction cache with
  | nil => intro k _ hk; simp at hk
  | cons p rest ih =>
      intro k hnd hk
      rw [List.map_cons] at hnd
      have hnd' := List.nodup_cons.mp hnd
      by_cases hpk : p.1 = k
      · have hfilter : rest.filter (fun q => decide (q.1 ≠ k)) = rest := by
          apply List.filter_eq_self.mpr
          intro q hq
          apply decide_eq_true
          intro hqk
          exact hnd'.1 (List.mem_map.mpr ⟨q, hq, by rw [hqk, hpk]⟩)
        have hstep : (p :: rest).filter (fun q => decide (q.1 ≠ k)) =
            rest.filter (fun q => decide (q.1 ≠ k)) := by
          rw [List.filter_cons]
          have hfalse : (decide (p.1 ≠ k)) = false := by simp [hpk]
          rw [hfalse]
          simp
        rw [hstep, hfilter]
        simp
      · have hk' : k ∈ rest.map Prod.fst := by
          rw [List.map_cons] at hk
          rcases List.mem_cons.mp hk with h | h
          · exact absurd h.symm hpk
          · exact h
        have ihk := ih k hnd'.2 hk'
        rw [List.filter_cons]
        have htrue : (decide (p.1 ≠ k)) = true := decide_eq_true hpk
        rw [htrue]
        simp only [if_true, List.length_cons]
        omega

/-- `move_to_end` of a present key: the entry is removed from its place and
appended at the recency tail. -/
theorem moveToEnd_eq_filter_append {cache : Cache} {k : CacheKey} {e : CacheEntry}
    (h : cacheLookup cache k = some e) :
    moveToEnd k cache = cache.filter (fun p => decide (p.1 ≠ k)) ++ [(k, e)] := by
  unfold moveToEnd
  rw [h]

/-- `move_to_end` preserves the entry count when keys are unique. -/
theorem moveToEnd_length {cache : Cache} {k : CacheKey}
    (hnd : (cache.map Prod.fst).Nodup) (hk : k ∈ cache.map Prod.fst) :
    (moveToEnd k cache).length = cache.length := by
  cases hl : cacheLookup cache k with
  | none =>
      exfalso
      have hs := cacheLookup_isSome_of_mem_keys hk
      rw [hl] at hs
      simp at hs
  | some e =>
      rw [moveToEnd_eq_filter_append hl, List.length_append]
      have := length_filter_ne_of_nodup cache k hnd hk
      simpa using this

/-- Every entry of `move_to_end`'s result was already stored in the
cache. -/
theorem moveToEnd_subset {cache : Cache} {k : CacheKey} :
    ∀ p ∈ moveToEnd k cache, p ∈ cache := by
  intro p hp
  unfold moveToEnd at hp
  cases hl : cacheLookup cache k with
  | none => rw [hl] at hp; exact hp
  | some e =>
      rw [hl] at hp
      rcases List.mem_append.mp hp with hp | hp
      · exact (List.filter_sublist _).subset hp
      · rw [List.mem_singleton] at hp
        rw [hp]
        exact cacheLookup_mem hl

/-- `move_to_end` keeps keys unique. -/
theorem moveToEnd_keys_nodup {cache : Cache} {k : CacheKey}
    (hnd : (cache.map Prod.fst).Nodup) :
    ((moveToEnd k cache).map Prod.fst).Nodup := by
  unfold moveToEnd
  cases hl : cacheLookup cache k with
  | none => exact hnd
  | some e =>
      rw [List.map_append]
      apply List.Nodup.append
      · exact List.Nodup.sublist ((List.filter_sublist cache).map Prod.fst) hnd
      · simp
      · intro a ha hb
        simp at hb
        rcases List.mem_map.mp ha with ⟨p, hp, hpk⟩
        have hne : p.1 ≠ k := by simpa using List.of_mem_filter hp
        rw [hb] at hpk
        exact hne hpk

/-- When every entry is fresh, `_cleanup_cache` reduces to dropping the
oldest entries beyond the capacity from the head of the recency order. -/
theorem cleanup_fresh_eq_drop (ttl : Int) (maxSize : Nat) (now : Int) (cache : Cache)
    (hfresh : ∀ p ∈ cache, now - p.2.lastUpdated ≤ ttl) :
    cleanupCacheWith ttl maxSize now cache = cache.drop (cache.length - maxSize) := by
  unfold cleanupCacheWith
  have : cache.filter (fun p => decide (now - p.2.lastUpdated ≤ ttl)) = cache := by
    apply List.filter_eq_self.mpr
    intro p hp
    exact decide_eq_true (hfresh p hp)
  rw [this]

/-- C6: when more than the configured maximum number of distinct keys are
stored, cleanup evicts from the head of the recency order: after touching
key `k` (which moves it to the most-recent position, as `update_wip_message`
does on every call), `k` survives the eviction while the key at the head of
the order — the least recently touched one — is removed.  (Freshness is
assumed so that capacity eviction, not the TTL, decides survival.) -/
theorem lru_eviction_order (now : Int) (cache : Cache) (k : CacheKey)
    (hfresh : ∀ p ∈ cache, now - p.2.lastUpdated ≤ cacheTtlSeconds)
    (hnd : (cache.map Prod.fst).Nodup)
    (hk : k ∈ cache.map Prod.fst)
    (hlen : cacheMaxSize < cache.length) :
    k ∈ (cleanupCache (moveToEnd k cache) now).map Prod.fst ∧
      ∀ p, (moveToEnd k cache).head? = some p → p.1 ≠ k →
        p.1 ∉ (cleanupCache (moveToEnd k cache) now).map Prod.fst := by
  have hsome := cacheLookup_isSome_of_mem_keys hk
  cases hl : cacheLookup cache k with
  | none =>
      rw [hl] at hsome
      simp at hsome
  | some e =>
      have hfresh' : ∀ p ∈ moveToEnd k cache, now - p.2.lastUpdated ≤ cacheTtlSeconds :=
        fun p hp => hfresh p (moveToEnd_subset p hp)
      have hdrop : cleanupCache (moveToEnd k cache) now =
          (moveToEnd k cache).drop ((moveToEnd k cache).length - cacheMaxSize) :=
        cleanup_fresh_eq_drop _ _ _ _ hfresh'
      have hlen' : (moveToEnd k cache).length = cache.length := moveToEnd_length hnd hk
      have hfl : (cache.filter (fun p => decide (p.1 ≠ k))).length + 1 = cache.length :=
        length_filter_ne_of_nodup cache k hnd hk
      have hpos : 1 ≤ (moveToEnd k cache).length - cacheMaxSize := by
        have : 1 ≤ cacheMaxSize := by norm_num [cacheMaxSize]
        omega
      constructor
      · rw [hdrop, moveToEnd_eq_filter_append hl]
        have hle : (cache.filter (fun p => decide (p.1 ≠ k)) ++ [(k, e)]).length - cacheMaxSize ≤
            (cache.filter (fun p => decide (p.1 ≠ k))).length := by
          rw [List.length_append]
          have : 1 ≤ cacheMaxSize := by norm_num [cacheMaxSize]
          simp only [List.length_singleton]
          omega
        rw [List.drop_append_of_le_length hle]
        simp
      · intro p hp hpk
        rw [hdrop]
        have hnd' : ((moveToEnd k cache).map Prod.fst).Nodup := moveToEnd_keys_nodup hnd
        cases hmc : moveToEnd k cache with
        | nil =>
            rw [hmc] at hp
            simp at hp
        | cons q rest =>
            rw [hmc] at hp
            simp at hp
            rw [hmc] at hnd' hpos
            have h1 : (q :: rest).drop ((q :: rest).length - cacheMaxSize) =
                rest.drop ((q :: rest).length - cacheMaxSize - 1) := by
              cases hn : (q :: rest).length - cacheMaxSize with
              | zero => omega
              | succ m =>
                  rw [List.drop_succ_cons]
                  simp
            rw [h1]
            intro hmem
            have hsub : (rest.drop ((q :: rest).length - cacheMaxSize - 1)).Sublist rest :=
              List.drop_sublist _ _
            have hpm : p.1 ∈ rest.map Prod.fst := (hsub.map Prod.fst).subset hmem
            rw [List.map_cons] at hnd'
            have hq := (List.nodup_cons.mp hnd').1
            rw [hp] at hq
            exact hq hpm

/-- Witness for C6 on a 101-entry registry: after touching `keyFive`, a
cleanup at capacity 100 keeps it and evicts the head key instead. -/
theorem lru_eviction_order_witness :
    (∀ p ∈ bigCache, (0 : Int) - p.2.lastUpdated ≤ cacheTtlSeconds) ∧
      (bigCache.map Prod.fst).Nodup ∧
      keyFive ∈ bigCache.map Prod.fst ∧
      cacheMaxSize < bigCache.length ∧
      (keyFive ∈ (cleanupCache (moveToEnd keyFive bigCache) 0).map Prod.fst ∧
        ∀ p, (moveToEnd keyFive bigCache).head? = some p → p.1 ≠ keyFive →
          p.1 ∉ (cleanupCache (moveToEnd keyFive bigCache) 0).map Prod.fst) := by
  have h1 : ∀ p ∈ bigCache, (0 : Int) - p.2.lastUpdated ≤ cacheTtlSeconds := by decide
  have h2 : (bigCache.map Prod.fst).Nodup := by decide
  have h3 : keyFive ∈ bigCache.map Prod.fst := by decide
  have h4 : cacheMaxSize < bigCache.length := by decide
  exact ⟨h1, h2, h3, h4, lru_eviction_order 0 bigCache keyFive h1 h2 h3 h4⟩

/-- Evaluation of `splitPred` on a cons cell, given the split of the
tail. -/
theorem splitPred_cons_eq (q : Char → Bool) (c : Char) (cs g : Str) (gs : List Str)
    (hg : splitPred q cs = g :: gs) :
    splitPred q (c :: cs) = if q c = true then [] :: g :: gs else (c :: g) :: gs := by
  rw [splitPred, hg]

/-- `splitPred` never returns the empty list of pieces. -/
theorem splitPred_shape (q : Char → Bool) : ∀ l : Str, ∃ g gs, splitPred q l = g :: gs := by
  intro l
  induction l with
  | nil => exact ⟨[], [], rfl⟩
  | cons c cs ih =>
      obtain ⟨g, gs, hg⟩ := ih
      by_cases hc : q c = true
      · exact ⟨[], g :: gs, by rw [splitPred_cons_eq q c cs g gs hg, if_pos hc]⟩
      · refine ⟨c :: g, gs, ?_⟩
        rw [splitPred_cons_eq q c cs g gs hg, if_neg hc]

/-- Splitting distributes over a separator occurrence. -/
theorem splitPred_append_sep (q : Char → Bool) (c : Char) (hc : q c = true) :
    ∀ (a b : Str), splitPred q (a ++ c :: b) = splitPred q a ++ splitPred q b := by
  intro a
  induction a with
  | nil =>
      intro b
      obtain ⟨g, gs, hg⟩ := splitPred_shape q b
      rw [List.nil_append, splitPred_cons_eq q c b g gs hg, if_pos hc, hg]
      rfl
  | cons d a ih =>
      intro b
      obtain ⟨ga, gas, hga⟩ := splitPred_shape q a
      have hrw : splitPred q (a ++ c :: b) = ga :: (gas ++ splitPred q b) := by
        rw [ih b, hga]
        rfl
      by_cases hd : q d = true
      · rw [List.cons_append, splitPred_cons_eq q d (a ++ c :: b) ga (gas ++ splitPred q b) hrw,
          if_pos hd, splitPred_cons_eq q d a ga gas hga, if_pos hd]
        simp
      · rw [List.cons_append, splitPred_cons_eq q d (a ++ c :: b) ga (gas ++ splitPred q b) hrw,
          if_neg hd, splitPred_cons_eq q d a ga gas hga, if_neg hd]
        simp

/-- `tokens` of the empty string. -/
theorem tokens_nil : tokens [] = [] := rfl

/-- The word list splits at every separator character. -/
theorem tokens_append_sep (c : Char) (hc : isSepChar c = true) (a b : Str) :
    tokens (a ++ c :: b) = tokens a ++ tokens b := by
  unfold tokens
  rw [splitPred_append_sep isSepChar c hc a b, List.filter_append]

/-- Joining the pieces with the separator restores the original string. -/
theorem joinChar_splitPred (c : Char) : ∀ l : Str,
    joinChar c (splitPred (fun x => x == c) l) = l := by
  intro l
  induction l with
  | nil => rfl
  | cons d ds ih =>
      obtain ⟨g, gs, hg⟩ := splitPred_shape (fun x => x == c) ds
      by_cases hd : (d == c) = true
      · have hdc : d = c := by simpa using hd
        rw [splitPred_cons_eq _ d ds g gs hg, if_pos hd]
        rw [hg] at ih
        rw [joinChar, List.nil_append, ih, hdc]
      · rw [splitPred_cons_eq _ d ds g gs hg, if_neg hd]
        rw [hg] at ih
        cases gs with
        | nil => rw [joinChar] at ih ⊢; rw [ih]
        | cons g' gs' =>
            rw [joinChar] at ih ⊢
            rw [List.cons_append, ih]

/-- Collecting the words of each piece collects the words of the joined
string, when the join character is a separator. -/
theorem flatMap_tokens_joinChar (c : Char) (hc : isSepChar c = true) :
    ∀ gs : List Str, tokens (joinChar c gs) = gs.flatMap tokens := by
  intro gs
  induction gs with
  | nil => rfl
  | cons g gs ih =>
      cases gs with
      | nil => simp [joinChar, List.flatMap_cons, tokens_nil]
      | cons g' gs' =>
          rw [joinChar, tokens_append_sep c hc, List.flatMap_cons, ih]

/-- The words of a string are the words of its pieces under any separator
character split. -/
theorem flatMap_tokens_splitPred (c : Char) (hc : isSepChar c = true) (l : Str) :
    (splitPred (fun x => x == c) l).flatMap tokens = tokens l := by
  have hj := joinChar_splitPred c l
  have := flatMap_tokens_joinChar c hc (splitPred (fun x => x == c) l)
  rw [hj] at this
  exact this.symm

/-- Grouping words into lines preserves the multiset of words. -/
theorem groupWords_flat_tokens (maxLength : Nat) :
    ∀ (ws : List Str) (curr : Str),
      (groupWords maxLength curr ws).flatMap tokens = tokens curr ++ ws.flatMap tokens := by
  intro ws
  induction ws with
  | nil =>
      intro curr
      unfold groupWords
      by_cases he : curr.isEmpty
      · rw [if_pos he, List.isEmpty_iff.mp he]
        rfl
      · rw [if_neg he]
        simp
  | cons w ws ih =>
      intro curr
      unfold groupWords
      have htest : tokens (if curr.isEmpty then w else curr ++ ' ' :: w) =
          tokens curr ++ tokens w := by
        by_cases he : curr.isEmpty
        · rw [if_pos he, List.isEmpty_iff.mp he, tokens_nil]
          rfl
        · rw [if_neg he, tokens_append_sep ' ' (by decide)]
      by_cases ht : utf8Len (if curr.isEmpty then w else curr ++ ' ' :: w) ≤ maxLength
      · rw [if_pos ht, ih, htest, List.flatMap_cons, List.append_assoc]
      · rw [if_neg ht]
        by_cases he : curr.isEmpty
        · rw [if_pos he, ih, List.isEmpty_iff.mp he, tokens_nil, List.flatMap_cons]
          rfl
        · rw [if_neg he, List.flatMap_cons, ih, List.flatMap_cons]

/-- One packing step only regroups words: every word of the state plus the
incoming line survives into the new state. -/
theorem chunkStep_tokens (maxLength i : Nat) (st : ChunkState) (l : Str)
    (hz : i = 0 → st.curr = []) :
    ∀ w, w ∈ st.chunks.flatMap tokens ++ (tokens st.curr ++ tokens l) →
      w ∈ (chunkStep maxLength st i l).chunks.flatMap tokens ++
        tokens (chunkStep maxLength st i l).curr := by
  intro w hw
  have hfence : tokens fenceStr = [fenceStr] := by decide
  unfold chunkStep
  dsimp only
  by_cases hcond :
      (decide (maxLength < utf8Len
          (st.curr ++ (if !st.curr.isEmpty && decide (0 < i) then ['\n'] else []) ++ l)) &&
        !st.curr.isEmpty) = true
  · rw [if_pos hcond]
    dsimp only
    have hclosed : tokens (if (if containsSeq fenceStr l then !st.inCode else st.inCode)
          then st.curr ++ '\n' :: fenceStr else st.curr) =
        tokens st.curr ++ (if (if containsSeq fenceStr l then !st.inCode else st.inCode)
          then [fenceStr] else []) := by
      by_cases hin : (if containsSeq fenceStr l then !st.inCode else st.inCode) = true
      · rw [if_pos hin, if_pos hin, tokens_append_sep '\n' (by decide), hfence]
      · rw [if_neg hin, if_neg hin, List.append_nil]
    have hnext : tokens (if (if containsSeq fenceStr l then !st.inCode else st.inCode)
          then fenceStr ++ '\n' :: l else l) =
        (if (if containsSeq fenceStr l then !st.inCode else st.inCode)
          then [fenceStr] else []) ++ tokens l := by
      by_cases hin : (if containsSeq fenceStr l then !st.inCode else st.inCode) = true
      · rw [if_pos hin, if_pos hin, tokens_append_sep '\n' (by decide), hfence]
      · rw [if_neg hin, if_neg hin, List.nil_append]
    rw [List.flatMap_append]
    simp only [List.flatMap_cons, List.flatMap_nil, List.append_nil]
    rw [hclosed, hnext]
    rcases List.mem_append.mp hw with hw | hw
    · exact List.mem_append_left _ (List.mem_append_left _ hw)
    · rcases List.mem_append.mp hw with hw | hw
      · exact List.mem_append_left _ (List.mem_append_right _ (List.mem_append_left _ hw))
      · exact List.mem_append_right _ (List.mem_append_right _ hw)
  · rw [if_neg hcond]
    dsimp only
    have hcurr : tokens (st.curr ++ (if !st.curr.isEmpty && decide (0 < i) then ['\n'] else []) ++ l) =
        tokens st.curr ++ tokens l := by
      by_cases hsep : (!st.curr.isEmpty && decide (0 < i)) = true
      · rw [if_pos hsep]
        rw [show st.curr ++ ['\n'] ++ l = st.curr ++ '\n' :: l from by simp]
        rw [tokens_append_sep '\n' (by decide)]
      · have hnil : st.curr = [] := by
          rcases Bool.and_eq_false_iff.mp (Bool.not_eq_true _ |>.mp hsep) with h | h
          · exact List.isEmpty_iff.mp (by simpa using h)
          · exact hz (by simpa using h)
        rw [if_neg hsep, hnil, tokens_nil]
        rfl
    rcases List.mem_append.mp hw with hw | hw
    · exact List.mem_append_left _ hw
    · exact List.mem_append_right _ (by rw [hcurr]; exact hw)

/-- The packing loop only regroups words. -/
theorem chunkLoop_tokens (maxLength : Nat) :
    ∀ (lines : List Str) (i : Nat) (st : ChunkState), (i = 0 → st.curr = []) →
      ∀ w, w ∈ st.chunks.flatMap tokens ++ (tokens st.curr ++ lines.flatMap tokens) →
        w ∈ (chunkLoop maxLength lines i st).chunks.flatMap tokens ++
          tokens (chunkLoop maxLength lines i st).curr := by
  intro lines
  induction lines with
  | nil =>
      intro i st _ w hw
      simpa using hw
  | cons l ls ih =>
      intro i st hz w hw
      rw [chunkLoop]
      apply ih (i + 1) (chunkStep maxLength st i l) (by omega)
      have hw' : w ∈ (st.chunks.flatMap tokens ++ (tokens st.curr ++ tokens l)) ++
          ls.flatMap tokens := by
        rw [List.flatMap_cons] at hw
        rcases List.mem_append.mp hw with hw | hw
        · exact List.mem_append_left _ (List.mem_append_left _ hw)
        · rcases List.mem_append.mp hw with hw | hw
          · exact List.mem_append_left _ (List.mem_append_right _ (List.mem_append_left _ hw))
          · rcases List.mem_append.mp hw with hw | hw
            · exact List.mem_append_left _ (List.mem_append_right _ (List.mem_append_right _ hw))
            · exact List.mem_append_right _ hw
      rcases List.mem_append.mp hw' with hw' | hw'
      · have := chunkStep_tokens maxLength i st l hz w hw'
        rcases List.mem_append.mp this with h | h
        · exact List.mem_append_left _ h
        · exact List.mem_append_right _ (List.mem_append_left _ h)
      · exact List.mem_append_right _ (List.mem_append_right _ hw')

/-- C7 (amended): when the text contains a newline or a space, no word is
ever split: every space/newline-delimited word of the input appears intact
as a word of some emitted chunk (chunks only add synthetic fence tokens
and newline separators around whole lines/word-groups).  Without newlines
and spaces the byte path slices the single long word at code-point
boundaries — never inside a multi-byte code point, but the word itself
does not survive (see the counterexample). -/
theorem words_preserved (text : Str) (maxLength : Nat) (chunks : List Str)
    (h : splitLongMessage text maxLength = some chunks)
    (hsep : text.contains '\n' = true ∨ text.contains ' ' = true) :
    ∀ w ∈ tokens text, w ∈ chunks.flatMap tokens := by
  intro w hw
  unfold splitLongMessage at h
  by_cases hshort : utf8Len text ≤ maxLength
  · rw [if_pos hshort] at h
    cases h
    simpa using hw
  · rw [if_neg hshort] at h
    cases hlines : splitLongMessageLines maxLength text with
    | none => rw [hlines] at h; simp at h
    | some lines =>
        rw [hlines] at h
        simp only [Option.some.injEq] at h
        have hflat : lines.flatMap tokens = tokens text := by
          unfold splitLongMessageLines at hlines
          by_cases hnl : text.contains '\n'
          · rw [if_pos hnl] at hlines
            cases hlines
            exact flatMap_tokens_splitPred '\n' (by decide) text
          · rw [if_neg hnl] at hlines
            by_cases hsp : text.contains ' '
            · rw [if_pos hsp] at hlines
              cases hlines
              rw [groupWords_flat_tokens maxLength _ [], tokens_nil, List.nil_append]
              exact flatMap_tokens_splitPred ' ' (by decide) text
            · rcases hsep with hc | hc
              · exact absurd hc hnl
              · exact absurd hc hsp
        have hloop := chunkLoop_tokens maxLength lines 0
          { chunks := [], curr := [], inCode := false } (fun _ => rfl) w
          (by
            rw [List.flatMap_nil, List.nil_append]
            show w ∈ tokens [] ++ lines.flatMap tokens
            rw [tokens_nil, List.nil_append, hflat]
            exact hw)
        subst h
        by_cases he : (chunkLoop maxLength lines 0
            { chunks := [], curr := [], inCode := false }).curr.isEmpty
        · rw [if_pos he]
          rcases List.mem_append.mp hloop with hc | hc
          · exact hc
          · rw [List.isEmpty_iff.mp he, tokens_nil] at hc
            exact absurd hc (List.not_mem_nil w)
        · rw [if_neg he, List.flatMap_append]
          rcases List.mem_append.mp hloop with hc | hc
          · exact List.mem_append_left _ hc
          · refine List.mem_append_right _ ?_
            simpa using hc

/-- Witness for the amended C7 on a two-word text split across two
chunks. -/
theorem words_preserved_witness :
    splitLongMessage c7wText 3 = some ["aa".data, "bb".data] ∧
      c7wText.contains ' ' = true ∧
      ∀ w ∈ tokens c7wText, w ∈ (["aa".data, "bb".data] : List Str).flatMap tokens := by
  have h : splitLongMessage c7wText 3 = some ["aa".data, "bb".data] := by decide
  exact ⟨h, by decide, words_preserved c7wText 3 _ h (Or.inr (by decide))⟩

/-- A lookup misses exactly when no stored key matches. -/
theorem lookupBy_eq_none_iff {α β : Type} [DecidableEq α] :
    ∀ (l : List (α × β)) (k : α), lookupBy l k = none ↔ ∀ p ∈ l, p.1 ≠ k := by
  intro l k
  constructor
  · intro h p hp hpk
    induction l with
    | nil => exact absurd hp (List.not_mem_nil p)
    | cons q rest ih =>
        unfold lookupBy at h
        by_cases hq : q.1 = k
        · rw [if_pos hq] at h
          exact absurd h (by simp)
        · rw [if_neg hq] at h
          rcases List.mem_cons.mp hp with hp | hp
          · exact hq (hp ▸ hpk)
          · exact ih h hp
  · exact lookupBy_eq_none l k

/-- Lookups skip over a block with no matching key. -/
theorem lookupBy_append_of_none {α β : Type} [DecidableEq α] :
    ∀ (a b : List (α × β)) (k : α), lookupBy a k = none →
      lookupBy (a ++ b) k = lookupBy b k := by
  intro a
  induction a with
  | nil => intro b k _; rfl
  | cons p rest ih =>
      intro b k h
      rw [lookupBy] at h
      by_cases hp : p.1 = k
      · rw [if_pos hp] at h
        exact absurd h (by simp)
      · rw [if_neg hp] at h
        rw [List.cons_append, lookupBy, if_neg hp]
        exact ih b k h

/-- A key stored at the end behind non-matching entries is what lookups
find. -/
theorem cacheLookup_of_keyAtEnd {cache : Cache} {k : CacheKey} {e : CacheEntry}
    (h : KeyAtEnd cache k e) : cacheLookup cache k = some e := by
  obtain ⟨front, hc, hf⟩ := h
  rw [hc]
  unfold cacheLookup
  rw [lookupBy_append_of_none front _ k (lookupBy_eq_none_iff front k |>.mpr hf)]
  unfold lookupBy
  rw [if_pos rfl]

/-- In-place mutation rewrites exactly the keyed entry of a
`KeyAtEnd`-shaped cache. -/
theorem keyAtEnd_mapEntry {cache : Cache} {k : CacheKey} {e : CacheEntry}
    (f : CacheEntry → CacheEntry) (h : KeyAtEnd cache k e) :
    KeyAtEnd (mapEntry k f cache) k (f e) := by
  obtain ⟨front, hc, hf⟩ := h
  refine ⟨front, ?_, hf⟩
  rw [hc]
  unfold mapEntry
  rw [List.map_append]
  congr 1
  · conv_rhs => rw [← List.map_id front]
    apply List.map_congr_left
    intro p hp
    rw [if_neg (hf p hp)]
    rfl
  · simp

/-- After get-or-create plus touch, the conversation's entry sits at the
recency tail carrying the looked-up timestamps and the fresh touch time. -/
theorem keyAtEnd_wipTouched (c : Cache) (k : CacheKey) (ts : String) (now : Int) :
    KeyAtEnd (wipTouched (wipEnsured c k ts now) k now) k
      { timestamps := entryTimestamps (wipEnsured c k ts now) k, lastUpdated := now } := by
  have hsome : ∃ e0, cacheLookup (wipEnsured c k ts now) k = some e0 := by
    unfold wipEnsured
    by_cases hl : (cacheLookup c k).isSome
    · rw [if_pos hl]
      exact ⟨(cacheLookup c k).get hl, (Option.some_get hl).symm⟩
    · rw [if_neg hl]
      have hnone : cacheLookup c k = none := by
        cases h : cacheLookup c k
        · rfl
        · rw [h] at hl; simp at hl
      refine ⟨{ timestamps := [ts], lastUpdated := now }, ?_⟩
      show lookupBy (c ++ [(k, { timestamps := [ts], lastUpdated := now })]) k = _
      rw [lookupBy_append_of_none c _ k hnone, lookupBy, if_pos rfl]
  obtain ⟨e0, he0⟩ := hsome
  have hts : entryTimestamps (wipEnsured c k ts now) k = e0.timestamps := by
    unfold entryTimestamps
    rw [he0]
    rfl
  unfold wipTouched
  rw [moveToEnd_eq_filter_append he0]
  have hfront : ∀ p ∈ (wipEnsured c k ts now).filter (fun p => decide (p.1 ≠ k)), p.1 ≠ k :=
    fun p hp => by simpa using List.of_mem_filter hp
  have hk : KeyAtEnd ((wipEnsured c k ts now).filter (fun p => decide (p.1 ≠ k)) ++ [(k, e0)]) k e0 :=
    ⟨_, rfl, hfront⟩
  have hmap := keyAtEnd_mapEntry (fun e => { e with lastUpdated := now }) hk
  rw [hts]
  exact hmap

/-- The looked-up timestamps after touch are the ensured entry's. -/
theorem wipTss_eq (c : Cache) (k : CacheKey) (ts : String) (now : Int) :
    wipTss c k ts now = entryTimestamps (wipEnsured c k ts now) k := by
  unfold wipTss entryTimestamps
  rw [cacheLookup_of_keyAtEnd (keyAtEnd_wipTouched c k ts now)]
  rfl

/-- A fresh tail entry survives `_cleanup_cache`. -/
theorem keyAtEnd_cleanup {cache : Cache} {k : CacheKey} {e : CacheEntry}
    (ttl : Int) (maxSize : Nat) (now : Int)
    (hfresh : now - e.lastUpdated ≤ ttl) (hmax : 1 ≤ maxSize) (h : KeyAtEnd cache k e) :
    KeyAtEnd (cleanupCacheWith ttl maxSize now cache) k e := by
  obtain ⟨front, hc, hf⟩ := h
  unfold cleanupCacheWith
  rw [hc, List.filter_append]
  have hke : List.filter (fun p => decide (now - p.2.lastUpdated ≤ ttl)) [(k, e)] = [(k, e)] := by
    simp only [List.filter_cons, List.filter_nil]
    rw [decide_eq_true hfresh]
    rfl
  rw [hke]
  have hlen : (front.filter (fun p => decide (now - p.2.lastUpdated ≤ ttl)) ++ [(k, e)]).length -
      maxSize ≤ (front.filter (fun p => decide (now - p.2.lastUpdated ≤ ttl))).length := by
    rw [List.length_append]
    simp only [List.length_singleton]
    omega
  rw [List.drop_append_of_le_length hlen]
  refine ⟨_, rfl, fun p hp => ?_⟩
  exact hf p ((List.filter_sublist front).subset ((List.drop_sublist _ _).subset hp))

/-- `updateWipFinish` does not change messages, ids or the log. -/
theorem updateWipFinish_fields (w : World) (k : CacheKey) (text : Str) (now : Int) :
    (updateWipFinish w k text now).msgs = w.msgs ∧
      (updateWipFinish w k text now).nextTs = w.nextTs ∧
      (updateWipFinish w k text now).log = w.log :=
  ⟨rfl, rfl, rfl⟩

/-- `finishCache` preserves the tail entry and its timestamps (the
grace-window re-stamp touches only `last_updated`, and a fresh tail entry
survives the opportunistic cleanup). -/
theorem keyAtEnd_finishCache {cache : Cache} {k : CacheKey} {e : CacheEntry}
    (text : Str) (now : Int) (h : KeyAtEnd cache k e) (hlu : e.lastUpdated = now) :
    ∃ e', KeyAtEnd (finishCache cache k text now) k e' ∧
      e'.timestamps = e.timestamps := by
  unfold finishCache
  dsimp only
  by_cases hcomp : isCompleteText text = true
  · rw [if_pos hcomp]
    have h1 := keyAtEnd_mapEntry (fun e => { e with lastUpdated := now - cacheTtlSeconds + 30 }) h
    by_cases hlen : cacheMaxSize / 2 <
        (mapEntry k (fun e => { e with lastUpdated := now - cacheTtlSeconds + 30 }) cache).length
    · rw [if_pos hlen]
      refine ⟨_, keyAtEnd_cleanup cacheTtlSeconds cacheMaxSize now ?_ ?_ h1, rfl⟩
      · show now - (now - cacheTtlSeconds + 30) ≤ cacheTtlSeconds
        unfold cacheTtlSeconds
        omega
      · norm_num [cacheMaxSize]
    · rw [if_neg hlen]
      exact ⟨_, h1, rfl⟩
  · rw [if_neg hcomp]
    by_cases hlen : cacheMaxSize / 2 < cache.length
    · rw [if_pos hlen]
      refine ⟨e, keyAtEnd_cleanup cacheTtlSeconds cacheMaxSize now ?_ ?_ h, rfl⟩
      · rw [hlu]
        unfold cacheTtlSeconds
        omega
      · norm_num [cacheMaxSize]
    · rw [if_neg hlen]
      exact ⟨e, h, rfl⟩

/-- Evaluation of the send phase when a new chunk message is needed. -/
theorem updateWipSend_deficit (w : World) (ch ts : String) (k : CacheKey)
    (chunks : List Str) (tss : List String) (meta : MsgMeta)
    (hlt : tss.length < chunks.length) :
    updateWipSend w ch ts k chunks tss meta =
      ({ msgs := w.msgs.map (updMsg (ch, tss.getLastD ts)
            (chunks.getD (chunks.length - 2) []) (some meta)) ++
            [((ch, mkTs w.nextTs), { text := chunks.getLastD [], metadata := none })],
         nextTs := w.nextTs + 1,
         cache := mapEntry k (fun e => { e with timestamps := e.timestamps ++ [mkTs w.nextTs] })
           w.cache,
         log := w.log ++ [ApiCall.update ch (tss.getLastD ts)
            (chunks.getD (chunks.length - 2) []) (some meta)] ++
            [ApiCall.post ch ts (chunks.getLastD []) none] },
        mkTs w.nextTs) := by
  unfold updateWipSend chatUpdate chatPost
  rw [if_pos hlt]

/-- Evaluation of the send phase when the tracked messages suffice. -/
theorem updateWipSend_else (w : World) (ch ts : String) (k : CacheKey)
    (chunks : List Str) (tss : List String) (meta : MsgMeta)
    (hge : ¬ tss.length < chunks.length) :
    updateWipSend w ch ts k chunks tss meta =
      ({ msgs := w.msgs.map (updMsg (ch, tss.getLastD ts) (chunks.getLastD []) (some meta)),
         nextTs := w.nextTs,
         cache := w.cache,
         log := w.log ++ [ApiCall.update ch (tss.getLastD ts) (chunks.getLastD []) (some meta)] },
        tss.getLastD ts) := by
  unfold updateWipSend chatUpdate
  rw [if_neg hge]

/-- `update_wip_message` after a successful split is the core pipeline. -/
theorem updateWipMessage_eq_core (w : World) (ch ts : String) (text0 : Str)
    (messages : List RoleMsg) (user : String) (now : Int) (chunks : List Str)
    (hsplit : splitLongMessage (procText text0) 4000 = some chunks) :
    updateWipMessage w ch ts text0 messages user now =
      updateWipCore w ch ts (procText text0) chunks messages user now := by
  unfold updateWipMessage
  dsimp only
  rw [hsplit]

/-- Full evaluation of the core pipeline in the chunk-deficit case: the
old last message is updated with the second-to-last chunk (metadata
attached), the last chunk is posted as a fresh metadata-free message whose
id is appended to the tracked timestamps. -/
theorem updateWipCore_deficit_eval (w : World) (ch ts : String) (text : Str)
    (chunks : List Str) (messages : List RoleMsg) (user : String) (now : Int)
    (hlt : (wipTss w.cache (ch, ts) ts now).length < chunks.length) :
    updateWipCore w ch ts text chunks messages user now =
      (updateWipFinish
        { msgs := w.msgs.map (updMsg (ch, (wipTss w.cache (ch, ts) ts now).getLastD ts)
              (chunks.getD (chunks.length - 2) []) (some (wipMeta messages user))) ++
              [((ch, mkTs w.nextTs), { text := chunks.getLastD [], metadata := none })],
          nextTs := w.nextTs + 1,
          cache := mapEntry (ch, ts)
            (fun e => { e with timestamps := e.timestamps ++ [mkTs w.nextTs] })
            (wipTouched (wipEnsured w.cache (ch, ts) ts now) (ch, ts) now),
          log := w.log ++ [ApiCall.update ch ((wipTss w.cache (ch, ts) ts now).getLastD ts)
              (chunks.getD (chunks.length - 2) []) (some (wipMeta messages user))] ++
              [ApiCall.post ch ts (chunks.getLastD []) none] }
        (ch, ts) text now, mkTs w.nextTs) := by
  unfold updateWipCore
  dsimp only
  have hlt' : (entryTimestamps (wipTouched (wipEnsured w.cache (ch, ts) ts now) (ch, ts) now)
      (ch, ts)).length < chunks.length := hlt
  rw [updateWipSend_deficit _ ch ts (ch, ts) chunks _ (wipMeta messages user) hlt']
  rfl

/-- Full evaluation of the core pipeline when the tracked messages
suffice: the last tracked message is updated with the last chunk, with
metadata attached; nothing is posted and the timestamps stay. -/
theorem updateWipCore_else_eval (w : World) (ch ts : String) (text : Str)
    (chunks : List Str) (messages : List RoleMsg) (user : String) (now : Int)
    (hge : ¬ (wipTss w.cache (ch, ts) ts now).length < chunks.length) :
    updateWipCore w ch ts text chunks messages user now =
      (updateWipFinish
        { msgs := w.msgs.map (updMsg (ch, (wipTss w.cache (ch, ts) ts now).getLastD ts)
              (chunks.getLastD []) (some (wipMeta messages user))),
          nextTs := w.nextTs,
          cache := wipTouched (wipEnsured w.cache (ch, ts) ts now) (ch, ts) now,
          log := w.log ++ [ApiCall.update ch ((wipTss w.cache (ch, ts) ts now).getLastD ts)
              (chunks.getLastD []) (some (wipMeta messages user))] }
        (ch, ts) text now, (wipTss w.cache (ch, ts) ts now).getLastD ts) := by
  unfold updateWipCore
  dsimp only
  have hge' : ¬ (entryTimestamps (wipTouched (wipEnsured w.cache (ch, ts) ts now) (ch, ts) now)
      (ch, ts)).length < chunks.length := hge
  rw [updateWipSend_else _ ch ts (ch, ts) chunks _ (wipMeta messages user) hge']
  rfl

/-- Cons equation for the byte length. -/
theorem utf8Len_cons (c : Char) (cs : Str) : utf8Len (c :: cs) = c.utf8Size + utf8Len cs := rfl

/-- Byte length of a repeated character. -/
theorem utf8Len_replicate (n : Nat) (c : Char) :
    utf8Len (List.replicate n c) = n * c.utf8Size := by
  induction n with
  | zero => simp [utf8Len]
  | succ n ih =>
      rw [List.replicate_succ, utf8Len_cons, ih]
      ring

/-- `lineA` is 4000 bytes. -/
theorem utf8Len_lineA : utf8Len lineA = 4000 := by
  unfold lineA
  rw [utf8Len_replicate, show 'a'.utf8Size = 1 from by decide]

/-- `lineB` is 4000 bytes. -/
theorem utf8Len_lineB : utf8Len lineB = 4000 := by
  unfold lineB
  rw [utf8Len_replicate, show 'b'.utf8Size = 1 from by decide]

/-- Membership in a nonempty repeated list. -/
theorem mem_replicate_self (n : Nat) (h : n ≠ 0) (c : Char) : c ∈ List.replicate n c :=
  List.mem_replicate.mpr ⟨h, rfl⟩

/-- `lineA` is nonempty. -/
theorem lineA_ne_nil : lineA ≠ [] := by
  intro h
  have := congrArg List.length h
  unfold lineA at this
  rw [List.length_replicate, List.length_nil] at this
  exact absurd this (by norm_num)

/-- `lineB` is nonempty. -/
theorem lineB_ne_nil : lineB ≠ [] := by
  intro h
  have := congrArg List.length h
  unfold lineB at this
  rw [List.length_replicate, List.length_nil] at this
  exact absurd this (by norm_num)

/-- The placeholder substitution is the identity on texts that are not
whitespace-only. -/
theorem procText_eq_self (t : Str) (h : t.all isWsChar = false) : procText t = t := by
  unfold procText
  rw [h]
  rfl

/-- The big texts are not whitespace-only, so the placeholder substitution
leaves them unchanged. -/
theorem procText_bigText3 : procText bigText3 = bigText3 := by
  apply procText_eq_self
  apply List.all_eq_false.mpr
  refine ⟨'a', ?_, by decide⟩
  have ha : 'a' ∈ lineA := by
    unfold lineA
    exact mem_replicate_self 4000 (by norm_num) 'a'
  unfold bigText3
  exact List.mem_append_left _ ha

theorem procText_bigText2 : procText bigText2 = bigText2 := by
  apply procText_eq_self
  apply List.all_eq_false.mpr
  refine ⟨'a', ?_, by decide⟩
  have ha : 'a' ∈ lineA := by
    unfold lineA
    exact mem_replicate_self 4000 (by norm_num) 'a'
  unfold bigText2
  exact List.mem_append_left _ ha

/-- Both big texts contain a newline, so the line path is taken. -/
theorem bigText3_contains_nl : bigText3.contains '\n' = true := by
  apply List.elem_eq_true_of_mem
  unfold bigText3
  exact List.mem_append_right _ (List.mem_cons_self _ _)

theorem bigText2_contains_nl : bigText2.contains '\n' = true := by
  apply List.elem_eq_true_of_mem
  unfold bigText2
  exact List.mem_append_right _ (List.mem_cons_self _ _)

/-- A string without separator characters is a single piece. -/
theorem splitPred_no_sep (q : Char → Bool) :
    ∀ l : Str, (∀ c ∈ l, q c = false) → splitPred q l = [l] := by
  intro l
  induction l with
  | nil => intro _; rfl
  | cons c cs ih =>
      intro h
      have hcs := ih (fun x hx => h x (List.mem_cons_of_mem c hx))
      rw [splitPred_cons_eq q c cs cs [] hcs]
      rw [if_neg (by rw [h c (List.mem_cons_self c cs)]; simp)]

/-- No character of `lineA` (resp. `lineB`) is a newline. -/
theorem lineA_no_nl : ∀ c ∈ lineA, (c == '\n') = false := by
  intro c hc
  unfold lineA at hc
  rw [(List.mem_replicate.mp hc).2]
  decide

theorem lineB_no_nl : ∀ c ∈ lineB, (c == '\n') = false := by
  intro c hc
  unfold lineB at hc
  rw [(List.mem_replicate.mp hc).2]
  decide

/-- Newline split of the three-line text. -/
theorem splitPred_bigText3 :
    splitPred (fun c => c == '\n') bigText3 = [lineA, lineA, lineA] := by
  unfold bigText3
  rw [splitPred_append_sep _ '\n' (by decide), splitPred_append_sep _ '\n' (by decide),
    splitPred_no_sep _ lineA lineA_no_nl]
  rfl

/-- Newline split of the two-line text. -/
theorem splitPred_bigText2 :
    splitPred (fun c => c == '\n') bigText2 = [lineA, lineB] := by
  unfold bigText2
  rw [splitPred_append_sep _ '\n' (by decide), splitPred_no_sep _ lineA lineA_no_nl,
    splitPred_no_sep _ lineB lineB_no_nl]
  rfl

/-- The fence delimiter does not start at an `a` or `b`. -/
theorem sw_fence_a (xs : Str) : startsWithSeq fenceStr ('a' :: xs) = false := rfl

theorem sw_fence_b (xs : Str) : startsWithSeq fenceStr ('b' :: xs) = false := rfl

/-- The repeated-character lines contain no fence delimiter. -/
theorem containsSeq_fence_replicate_a : ∀ n, containsSeq fenceStr (List.replicate n 'a') = false := by
  intro n
  induction n with
  | zero => rfl
  | succ n ih =>
      rw [List.replicate_succ, containsSeq, sw_fence_a, ih]
      rfl

theorem containsSeq_fence_replicate_b : ∀ n, containsSeq fenceStr (List.replicate n 'b') = false := by
  intro n
  induction n with
  | zero => rfl
  | succ n ih =>
      rw [List.replicate_succ, containsSeq, sw_fence_b, ih]
      rfl

theorem containsSeq_fence_lineA : containsSeq fenceStr lineA = false :=
  containsSeq_fence_replicate_a 4000

theorem containsSeq_fence_lineB : containsSeq fenceStr lineB = false :=
  containsSeq_fence_replicate_b 4000

/-- `lineA.isEmpty` is false. -/
theorem lineA_isEmpty : lineA.isEmpty = false := by
  cases h : lineA.isEmpty with
  | false => rfl
  | true => exact absurd (List.isEmpty_iff.mp h) lineA_ne_nil

theorem lineB_isEmpty : lineB.isEmpty = false := by
  cases h : lineB.isEmpty with
  | false => rfl
  | true => exact absurd (List.isEmpty_iff.mp h) lineB_ne_nil

theorem utf8Len_bigText3 : utf8Len bigText3 = 12002 := by
  unfold bigText3
  rw [utf8Len_append, utf8Len_cons, utf8Len_append, utf8Len_cons, utf8Len_lineA,
    show '\n'.utf8Size = 1 from by decide]

theorem utf8Len_bigText2 : utf8Len bigText2 = 8001 := by
  unfold bigText2
  rw [utf8Len_append, utf8Len_cons, utf8Len_lineA, utf8Len_lineB,
    show '\n'.utf8Size = 1 from by decide]

/-- The three packing steps of the three-line big text. -/
theorem chunkStepA0 :
    chunkStep 4000 { chunks := [], curr := [], inCode := false } 0 lineA =
      { chunks := [], curr := lineA, inCode := false } := by
  unfold chunkStep
  simp [containsSeq_fence_lineA, utf8Len_lineA]

theorem chunkStepA1 :
    chunkStep 4000 { chunks := [], curr := lineA, inCode := false } 1 lineA =
      { chunks := [lineA], curr := lineA, inCode := false } := by
  unfold chunkStep
  have htest : utf8Len (lineA ++ '\n' :: lineA) = 8001 := by
    rw [utf8Len_append, utf8Len_cons, utf8Len_lineA,
      show '\n'.utf8Size = 1 from by decide]
  simp [containsSeq_fence_lineA, lineA_isEmpty, htest]

theorem chunkStepA2 :
    chunkStep 4000 { chunks := [lineA], curr := lineA, inCode := false } 2 lineA =
      { chunks := [lineA, lineA], curr := lineA, inCode := false } := by
  unfold chunkStep
  have htest : utf8Len (lineA ++ '\n' :: lineA) = 8001 := by
    rw [utf8Len_append, utf8Len_cons, utf8Len_lineA,
      show '\n'.utf8Size = 1 from by decide]
  simp [containsSeq_fence_lineA, lineA_isEmpty, htest]

theorem chunkStepB1 :
    chunkStep 4000 { chunks := [], curr := lineA, inCode := false } 1 lineB =
      { chunks := [lineA], curr := lineB, inCode := false } := by
  unfold chunkStep
  have htest : utf8Len (lineA ++ '\n' :: lineB) = 8001 := by
    rw [utf8Len_append, utf8Len_cons, utf8Len_lineA, utf8Len_lineB,
      show '\n'.utf8Size = 1 from by decide]
  simp [containsSeq_fence_lineB, lineA_isEmpty, htest]

theorem chunkLoop_bigText3 :
    chunkLoop 4000 [lineA, lineA, lineA] 0 { chunks := [], curr := [], inCode := false } =
      { chunks := [lineA, lineA], curr := lineA, inCode := false } := by
  rw [chunkLoop, chunkStepA0, chunkLoop, chunkStepA1, chunkLoop, chunkStepA2, chunkLoop]

theorem chunkLoop_bigText2 :
    chunkLoop 4000 [lineA, lineB] 0 { chunks := [], curr := [], inCode := false } =
      { chunks := [lineA], curr := lineB, inCode := false } := by
  rw [chunkLoop, chunkStepA0, chunkLoop, chunkStepB1, chunkLoop]

/-- `split_long_message` cuts the three-line big text into three 4000-byte
chunks. -/
theorem split_bigText3 : splitLongMessage bigText3 4000 = some [lineA, lineA, lineA] := by
  unfold splitLongMessage
  rw [if_neg (by rw [utf8Len_bigText3]; norm_num)]
  unfold splitLongMessageLines
  rw [if_pos bigText3_contains_nl, splitPred_bigText3]
  show some _ = _
  rw [chunkLoop_bigText3]
  simp [lineA_isEmpty]

/-- `split_long_message` cuts the two-line big text into two 4000-byte
chunks. -/
theorem split_bigText2 : splitLongMessage bigText2 4000 = some [lineA, lineB] := by
  unfold splitLongMessage
  rw [if_neg (by rw [utf8Len_bigText2]; norm_num)]
  unfold splitLongMessageLines
  rw [if_pos bigText2_contains_nl, splitPred_bigText2]
  show some _ = _
  rw [chunkLoop_bigText2]
  simp [lineB_isEmpty]

/-- The timestamps a tail entry yields on lookup. -/
theorem entryTimestamps_of_keyAtEnd {cache : Cache} {k : CacheKey} {e : CacheEntry}
    (h : KeyAtEnd cache k e) : entryTimestamps cache k = e.timestamps := by
  unfold entryTimestamps
  rw [cacheLookup_of_keyAtEnd h]
  rfl

/-- Get-or-create is the identity when the key is present. -/
theorem wipEnsured_of_isSome {cache : Cache} {k : CacheKey} (ts : String) (now : Int)
    (h : (cacheLookup cache k).isSome) : wipEnsured cache k ts now = cache := by
  unfold wipEnsured
  rw [if_pos h]

/-- `updateWipFinish` over an explicit state, with the registry effect
exposed. -/
theorem updateWipFinish_expand (m : List ((String × String) × PostedMsg)) (nt : Nat)
    (c : Cache) (lg : List ApiCall) (k : CacheKey) (t : Str) (n : Int) :
    updateWipFinish { msgs := m, nextTs := nt, cache := c, log := lg } k t n =
      { msgs := m, nextTs := nt, cache := finishCache c k t n, log := lg } := rfl

/-- Evaluation of the registry tail when the text is a complete render and
occupancy is at most half the capacity: only the grace-window re-stamp
happens. -/
theorem finishCache_complete_eval (cache : Cache) (k : CacheKey) (text : Str) (now : Int)
    (hc : isCompleteText text = true) (hlen : ¬ cacheMaxSize / 2 < cache.length) :
    finishCache cache k text now =
      mapEntry k (fun e => { e with lastUpdated := now - cacheTtlSeconds + 30 }) cache := by
  unfold finishCache
  dsimp only
  rw [if_pos hc, if_neg (show ¬ cacheMaxSize / 2 <
    (mapEntry k (fun e => { e with lastUpdated := now - cacheTtlSeconds + 30 }) cache).length
    from by simpa [mapEntry] using hlen)]

/-- Evaluation of the registry tail when the text still streams and
occupancy is at most half the capacity: the registry is untouched. -/
theorem finishCache_incomplete_eval (cache : Cache) (k : CacheKey) (text : Str) (now : Int)
    (hc : isCompleteText text = false) (hlen : ¬ cacheMaxSize / 2 < cache.length) :
    finishCache cache k text now = cache := by
  unfold finishCache
  dsimp only
  rw [if_neg (show ¬ isCompleteText text = true from by simp [hc]), if_neg hlen]

/-- `bigText3` regrouped so that its last line is explicit. -/
theorem bigText3_shape : bigText3 = (lineA ++ ('\n' :: (lineA ++ ['\n']))) ++ lineA := by
  unfold bigText3
  simp

/-- `bigText2` regrouped so that its last line is explicit. -/
theorem bigText2_shape : bigText2 = (lineA ++ ['\n']) ++ lineB := by
  unfold bigText2
  simp

/-- The reverse of `lineA` starts with an `a`. -/
theorem lineA_reverse : lineA.reverse = 'a' :: List.replicate 3999 'a' := by
  unfold lineA
  rw [List.reverse_replicate]
  rfl

/-- The reverse of `lineB` starts with a `b`. -/
theorem lineB_reverse : lineB.reverse = 'b' :: List.replicate 3999 'b' := by
  unfold lineB
  rw [List.reverse_replicate]
  rfl

/-- The reverse of `bigText3` starts with its last character, an `a`. -/
theorem bigText3_reverse :
    bigText3.reverse =
      'a' :: (List.replicate 3999 'a' ++ (lineA ++ ('\n' :: (lineA ++ ['\n']))).reverse) := by
  rw [bigText3_shape, List.reverse_append, lineA_reverse, List.cons_append]

/-- The reverse of `bigText2` starts with its last character, a `b`. -/
theorem bigText2_reverse :
    bigText2.reverse = 'b' :: (List.replicate 3999 'b' ++ (lineA ++ ['\n']).reverse) := by
  rw [bigText2_shape, List.reverse_append, lineB_reverse, List.cons_append]

/-- Neither closing emoji ends a string whose last character is an `a`. -/
theorem sw_hourglass_rev_a (xs : Str) :
    startsWithSeq hourglassSeq.reverse ('a' :: xs) = false := rfl

theorem sw_wave_rev_a (xs : Str) :
    startsWithSeq waveSeq.reverse ('a' :: xs) = false := rfl

theorem sw_hourglass_rev_b (xs : Str) :
    startsWithSeq hourglassSeq.reverse ('b' :: xs) = false := rfl

theorem sw_wave_rev_b (xs : Str) :
    startsWithSeq waveSeq.reverse ('b' :: xs) = false := rfl

/-- The big texts end in a letter, so they count as complete renders. -/
theorem isCompleteText_bigText3 : isCompleteText bigText3 = true := by
  unfold isCompleteText endsWithSeq
  rw [bigText3_reverse, sw_hourglass_rev_a, sw_wave_rev_a]
  rfl

theorem isCompleteText_bigText2 : isCompleteText bigText2 = true := by
  unfold isCompleteText endsWithSeq
  rw [bigText2_reverse, sw_hourglass_rev_b, sw_wave_rev_b]
  rfl

/-- The first big-text update call, fully evaluated. -/
theorem c4run1_eq : c4run1 = (w4r1, mkTs 0) := by
  have hck : splitLongMessage (procText bigText3) 4000 = some [lineA, lineA, lineA] := by
    rw [procText_bigText3]
    exact split_bigText3
  have hlt : (wipTss wBig.cache (chanC, tsRoot) tsRoot 100).length <
      ([lineA, lineA, lineA] : List Str).length := by
    rw [show wipTss wBig.cache (chanC, tsRoot) tsRoot 100 = [tsRoot] from by decide]
    decide
  unfold c4run1
  rw [updateWipMessage_eq_core wBig chanC tsRoot bigText3 [] userU 100 _ hck]
  rw [updateWipCore_deficit_eval wBig chanC tsRoot (procText bigText3)
    [lineA, lineA, lineA] [] userU 100 hlt]
  rw [procText_bigText3]
  rw [updateWipFinish_expand]
  rw [finishCache_complete_eval _ (chanC, tsRoot) bigText3 100 isCompleteText_bigText3 (by decide)]
  rfl

/-- The second, identical big-text update call, fully evaluated. -/
theorem c4run2_eq : c4run2 = (w4r2, mkTs 1) := by
  have hck : splitLongMessage (procText bigText3) 4000 = some [lineA, lineA, lineA] := by
    rw [procText_bigText3]
    exact split_bigText3
  have hfst : c4run1.1 = w4r1 := by rw [c4run1_eq]
  have hlt : (wipTss w4r1.cache (chanC, tsRoot) tsRoot 100).length <
      ([lineA, lineA, lineA] : List Str).length := by
    rw [show wipTss w4r1.cache (chanC, tsRoot) tsRoot 100 = [tsRoot, mkTs 0] from by decide]
    decide
  unfold c4run2
  rw [hfst]
  rw [updateWipMessage_eq_core w4r1 chanC tsRoot bigText3 [] userU 100 _ hck]
  rw [updateWipCore_deficit_eval w4r1 chanC tsRoot (procText bigText3)
    [lineA, lineA, lineA] [] userU 100 hlt]
  rw [procText_bigText3]
  rw [updateWipFinish_expand]
  rw [finishCache_complete_eval _ (chanC, tsRoot) bigText3 100 isCompleteText_bigText3 (by decide)]
  rfl

/-- The two-chunk update call with a system message, fully evaluated. -/
theorem c9run_eq : c9run = (w9r, mkTs 0) := by
  have hck : splitLongMessage (procText bigText2) 4000 = some [lineA, lineB] := by
    rw [procText_bigText2]
    exact split_bigText2
  have hlt : (wipTss wBig.cache (chanC, tsRoot) tsRoot 100).length <
      ([lineA, lineB] : List Str).length := by
    rw [show wipTss wBig.cache (chanC, tsRoot) tsRoot 100 = [tsRoot] from by decide]
    decide
  unfold c9run
  rw [updateWipMessage_eq_core wBig chanC tsRoot bigText2 sysMsgs userU 100 _ hck]
  rw [updateWipCore_deficit_eval wBig chanC tsRoot (procText bigText2)
    [lineA, lineB] sysMsgs userU 100 hlt]
  rw [procText_bigText2]
  rw [updateWipFinish_expand]
  rw [finishCache_complete_eval _ (chanC, tsRoot) bigText2 100 isCompleteText_bigText2 (by decide)]
  rfl

/-- Touching a present key does not grow the registry. -/
theorem wipTouched_ensured_length_le (c : Cache) (k : CacheKey) (ts : String) (now : Int) :
    (wipTouched (wipEnsured c k ts now) k now).length ≤ c.length + 1 := by
  unfold wipTouched mapEntry
  rw [List.length_map]
  unfold wipEnsured
  by_cases h : (cacheLookup c k).isSome
  · rw [if_pos h]
    obtain ⟨e, he⟩ := Option.isSome_iff_exists.mp h
    rw [moveToEnd_eq_filter_append he, List.length_append]
    have hle := List.length_filter_le (fun p => decide (p.1 ≠ k)) c
    simp only [List.length_cons, List.length_nil]
    omega
  · rw [if_neg h]
    have hnone : cacheLookup c k = none := by
      cases hl : cacheLookup c k
      · rfl
      · rw [hl] at h; simp at h
    have hsome : cacheLookup (c ++ [(k, { timestamps := [ts], lastUpdated := now })]) k =
        some { timestamps := [ts], lastUpdated := now } := by
      show lookupBy _ _ = _
      rw [lookupBy_append_of_none c _ k hnone]
      unfold lookupBy
      rw [if_pos rfl]
    rw [moveToEnd_eq_filter_append hsome, List.length_append, List.filter_append,
      List.length_append]
    have hone : List.filter (fun p => decide (p.1 ≠ k))
        [(k, ({ timestamps := [ts], lastUpdated := now } : CacheEntry))] = [] := by
      simp
    rw [hone]
    have hle := List.length_filter_le (fun p => decide (p.1 ≠ k)) c
    simp only [List.length_cons, List.length_nil]
    omega

/-- Re-applying the same update to a message is a no-op. -/
theorem updMsg_idem (target : String × String) (text : Str) (meta : Option MsgMeta)
    (p : (String × String) × PostedMsg) :
    updMsg target text meta (updMsg target text meta p) = updMsg target text meta p := by
  unfold updMsg
  by_cases h : p.1 = target
  · rw [if_pos h]
    dsimp only
    rw [if_pos h]
  · rw [if_neg h, if_neg h]

/-- Full evaluation of the core pipeline in the covered case under
streaming text and low occupancy: the registry keeps the touched entry and
nothing else changes shape. -/
theorem updateWipCore_else_state (w : World) (ch ts : String) (text : Str)
    (chunks : List Str) (messages : List RoleMsg) (user : String) (now : Int)
    (hge : ¬ (wipTss w.cache (ch, ts) ts now).length < chunks.length)
    (hinc : isCompleteText text = false)
    (hocc : ¬ cacheMaxSize / 2 <
      (wipTouched (wipEnsured w.cache (ch, ts) ts now) (ch, ts) now).length) :
    (updateWipCore w ch ts text chunks messages user now).1 =
      { msgs := w.msgs.map (updMsg (ch, (wipTss w.cache (ch, ts) ts now).getLastD ts)
            (chunks.getLastD []) (some (wipMeta messages user))),
        nextTs := w.nextTs,
        cache := wipTouched (wipEnsured w.cache (ch, ts) ts now) (ch, ts) now,
        log := w.log ++ [ApiCall.update ch ((wipTss w.cache (ch, ts) ts now).getLastD ts)
            (chunks.getLastD []) (some (wipMeta messages user))] } := by
  rw [updateWipCore_else_eval w ch ts text chunks messages user now hge]
  dsimp only
  rw [updateWipFinish_expand,
    finishCache_incomplete_eval _ (ch, ts) text now hinc hocc]

/-- Lookup steps over a non-matching head entry. -/
theorem lookupBy_cons_ne {A B : Type} [DecidableEq A] (p : A × B) (rest : List (A × B))
    (k : A) (h : ¬ p.1 = k) : lookupBy (p :: rest) k = lookupBy rest k := by
  show (if p.1 = k then some p.2 else lookupBy rest k) = lookupBy rest k
  rw [if_neg h]

/-- Lookup returns the matching head entry. -/
theorem lookupBy_cons_eq {A B : Type} [DecidableEq A] (p : A × B) (rest : List (A × B))
    (k : A) (h : p.1 = k) : lookupBy (p :: rest) k = some p.2 := by
  show (if p.1 = k then some p.2 else lookupBy rest k) = some p.2
  rw [if_pos h]

/-- Touching a key already sitting at the recency tail does not grow the
registry. -/
theorem wipTouched_length_of_keyAtEnd {cache : Cache} {k : CacheKey} {e : CacheEntry}
    (now : Int) (h : KeyAtEnd cache k e) :
    (wipTouched cache k now).length ≤ cache.length := by
  obtain ⟨front, hc, hf⟩ := h
  unfold wipTouched mapEntry
  rw [List.length_map, moveToEnd_eq_filter_append (cacheLookup_of_keyAtEnd ⟨front, hc, hf⟩), hc,
    List.filter_append]
  have hone : List.filter (fun p => decide (p.1 ≠ k)) [(k, e)] = [] := by simp
  rw [hone]
  have hle := List.length_filter_le (fun p => decide (p.1 ≠ k)) front
  simp only [List.length_append, List.append_nil, List.length_cons, List.length_nil]
  omega

/-- Component evaluation of the covered-case pipeline: the stored messages
are mapped through one update of the tracked last message, the id counter
is untouched, and the registry is the touched cache fed through the
completion tail. -/
theorem updateWipCore_else_parts (w : World) (ch ts : String) (text : Str)
    (chunks : List Str) (messages : List RoleMsg) (user : String) (now : Int)
    (hge : ¬ (wipTss w.cache (ch, ts) ts now).length < chunks.length) :
    (updateWipCore w ch ts text chunks messages user now).1.msgs =
        w.msgs.map (updMsg (ch, (wipTss w.cache (ch, ts) ts now).getLastD ts)
          (chunks.getLastD []) (some (wipMeta messages user))) ∧
      (updateWipCore w ch ts text chunks messages user now).1.nextTs = w.nextTs ∧
      (updateWipCore w ch ts text chunks messages user now).1.cache =
        finishCache (wipTouched (wipEnsured w.cache (ch, ts) ts now) (ch, ts) now)
          (ch, ts) text now := by
  rw [updateWipCore_else_eval w ch ts text chunks messages user now hge]
  dsimp only [updateWipFinish]
  exact ⟨rfl, rfl, rfl⟩

/-- C4 (amended): once the tracked chunk ids cover the chunk list, a second
identical call posts nothing: it re-updates the last tracked message in
place and leaves the stored messages, the id counter and the tracked
timestamps of the first call unchanged. -/
theorem update_idempotent_when_covered (w : World) (ch ts : String) (text : Str)
    (chunks : List Str) (messages : List RoleMsg) (user : String) (now : Int)
    (hge : ¬ (wipTss w.cache (ch, ts) ts now).length < chunks.length) :
    (updateWipCore (updateWipCore w ch ts text chunks messages user now).1
        ch ts text chunks messages user now).1.msgs =
      (updateWipCore w ch ts text chunks messages user now).1.msgs ∧
    (updateWipCore (updateWipCore w ch ts text chunks messages user now).1
        ch ts text chunks messages user now).1.nextTs =
      (updateWipCore w ch ts text chunks messages user now).1.nextTs ∧
    entryTimestamps (updateWipCore (updateWipCore w ch ts text chunks messages user now).1
        ch ts text chunks messages user now).1.cache (ch, ts) =
      entryTimestamps (updateWipCore w ch ts text chunks messages user now).1.cache (ch, ts) := by
  obtain ⟨hm1, hn1, hc1⟩ := updateWipCore_else_parts w ch ts text chunks messages user now hge
  have hk1 := keyAtEnd_wipTouched w.cache (ch, ts) ts now
  obtain ⟨e1, hke1, hts1⟩ := keyAtEnd_finishCache text now hk1 rfl
  have hlook1 : cacheLookup (finishCache (wipTouched (wipEnsured w.cache (ch, ts) ts now)
      (ch, ts) now) (ch, ts) text now) (ch, ts) = some e1 := cacheLookup_of_keyAtEnd hke1
  have htsr1 : entryTimestamps (finishCache (wipTouched (wipEnsured w.cache (ch, ts) ts now)
      (ch, ts) now) (ch, ts) text now) (ch, ts) =
      entryTimestamps (wipEnsured w.cache (ch, ts) ts now) (ch, ts) := by
    rw [entryTimestamps_of_keyAtEnd hke1, hts1]
  have hens2 : wipEnsured (finishCache (wipTouched (wipEnsured w.cache (ch, ts) ts now)
      (ch, ts) now) (ch, ts) text now) (ch, ts) ts now =
      finishCache (wipTouched (wipEnsured w.cache (ch, ts) ts now) (ch, ts) now)
        (ch, ts) text now :=
    wipEnsured_of_isSome ts now (by rw [hlook1]; rfl)
  have htss2 : wipTss (finishCache (wipTouched (wipEnsured w.cache (ch, ts) ts now)
      (ch, ts) now) (ch, ts) text now) (ch, ts) ts now =
      wipTss w.cache (ch, ts) ts now := by
    rw [wipTss_eq, hens2, htsr1, wipTss_eq]
  have hge2 : ¬ (wipTss (updateWipCore w ch ts text chunks messages user now).1.cache
      (ch, ts) ts now).length < chunks.length := by
    rw [hc1, htss2]
    exact hge
  obtain ⟨hm2, hn2, hc2⟩ := updateWipCore_else_parts
      (updateWipCore w ch ts text chunks messages user now).1 ch ts text chunks messages user
      now hge2
  refine ⟨?_, ?_, ?_⟩
  · rw [hm2, hm1, hc1, htss2, List.map_map]
    apply List.map_congr_left
    intro p _
    exact updMsg_idem _ _ _ p
  · rw [hn2, hn1]
  · rw [hc2, hc1]
    have hk2 := keyAtEnd_wipTouched (finishCache (wipTouched (wipEnsured w.cache (ch, ts) ts now)
        (ch, ts) now) (ch, ts) text now) (ch, ts) ts now
    obtain ⟨e2, hke2, hts2⟩ := keyAtEnd_finishCache text now hk2 rfl
    rw [entryTimestamps_of_keyAtEnd hke2, hts2]
    dsimp only
    rw [hens2, entryTimestamps_of_keyAtEnd hke1, hts1]

/-- Witness for the amended C4 at a concrete covered state (a complete
text, so the grace-window re-stamp also fires between the calls). -/
theorem update_idempotent_when_covered_witness :
    (¬ (wipTss w5.cache (chanC, tsRoot) tsRoot 1000).length <
        ([hiText] : List Str).length) ∧
    ((updateWipCore (updateWipCore w5 chanC tsRoot hiText [hiText] [] userU 1000).1
        chanC tsRoot hiText [hiText] [] userU 1000).1.msgs =
      (updateWipCore w5 chanC tsRoot hiText [hiText] [] userU 1000).1.msgs ∧
    (updateWipCore (updateWipCore w5 chanC tsRoot hiText [hiText] [] userU 1000).1
        chanC tsRoot hiText [hiText] [] userU 1000).1.nextTs =
      (updateWipCore w5 chanC tsRoot hiText [hiText] [] userU 1000).1.nextTs ∧
    entryTimestamps (updateWipCore
        (updateWipCore w5 chanC tsRoot hiText [hiText] [] userU 1000).1
        chanC tsRoot hiText [hiText] [] userU 1000).1.cache (chanC, tsRoot) =
      entryTimestamps (updateWipCore w5 chanC tsRoot hiText [hiText] []
        userU 1000).1.cache (chanC, tsRoot)) :=
  ⟨by decide,
    update_idempotent_when_covered w5 chanC tsRoot hiText [hiText] [] userU 1000 (by decide)⟩

/-- C4 counterexample: a second `update_wip_message` call with the same
three-chunk text posts a further continuation message instead of leaving
the first call's state unchanged: the tracked id list grows, a fresh
message id is consumed, and a new metadata-free message appears. -/
theorem second_identical_call_posts_again :
    entryTimestamps c4run2.1.cache (chanC, tsRoot) ≠
      entryTimestamps c4run1.1.cache (chanC, tsRoot) ∧
    c4run2.1.nextTs = c4run1.1.nextTs + 1 ∧
    msgLookup c4run2.1 (chanC, mkTs 1) = some { text := lineA, metadata := none } := by
  have h1 : c4run1.1 = w4r1 := by rw [c4run1_eq]
  have h2 : c4run2.1 = w4r2 := by rw [c4run2_eq]
  refine ⟨?_, ?_, ?_⟩
  · rw [h1, h2]
    decide
  · rw [h1, h2]
    rfl
  · rw [h2]
    show lookupBy w4r2.msgs (chanC, mkTs 1) = _
    rw [show w4r2.msgs = [((chanC, tsRoot), { text := lineA, metadata := some meta0 }),
        ((chanC, mkTs 0), { text := lineA, metadata := some meta0 }),
        ((chanC, mkTs 1), { text := lineA, metadata := none })] from rfl,
      lookupBy_cons_ne _ _ _ (by decide), lookupBy_cons_ne _ _ _ (by decide),
      lookupBy_cons_eq _ _ _ rfl]

/-- C9 (amended): whenever `update_wip_message` needs a new chunk message,
the two calls it sends are an update of the tracked last message carrying
the metadata payload (system-role messages plus user id) and a fresh post
of the final chunk carrying no metadata at all. -/
theorem continuation_post_metadata_policy (w : World) (ch ts : String) (text : Str)
    (chunks : List Str) (messages : List RoleMsg) (user : String) (now : Int)
    (hlt : (wipTss w.cache (ch, ts) ts now).length < chunks.length) :
    (updateWipCore w ch ts text chunks messages user now).1.log =
      w.log ++ [ApiCall.update ch ((wipTss w.cache (ch, ts) ts now).getLastD ts)
          (chunks.getD (chunks.length - 2) []) (some (wipMeta messages user)),
        ApiCall.post ch ts (chunks.getLastD []) none] := by
  rw [updateWipCore_deficit_eval w ch ts text chunks messages user now hlt]
  dsimp only [updateWipFinish]
  rw [List.append_assoc]
  rfl

/-- Witness for the amended C9 at a concrete deficit state. -/
theorem continuation_post_metadata_policy_witness :
    ((wipTss wBig.cache (chanC, tsRoot) tsRoot 100).length <
        ([hiText, hiText] : List Str).length) ∧
    (updateWipCore wBig chanC tsRoot hiText [hiText, hiText] [] userU 100).1.log =
      wBig.log ++ [ApiCall.update chanC
          ((wipTss wBig.cache (chanC, tsRoot) tsRoot 100).getLastD tsRoot)
          (([hiText, hiText] : List Str).getD (([hiText, hiText] : List Str).length - 2) [])
          (some (wipMeta [] userU)),
        ApiCall.post chanC tsRoot (([hiText, hiText] : List Str).getLastD []) none] :=
  ⟨by decide, continuation_post_metadata_policy wBig chanC tsRoot hiText [hiText, hiText]
      [] userU 100 (by decide)⟩

/-- C9 counterexample: after the two-chunk update call the freshly posted
continuation message stores no metadata, unlike the updated root message,
which carries the system-role messages plus the user id. -/
theorem continuation_post_lacks_metadata :
    msgLookup c9run.1 (chanC, mkTs 0) = some { text := lineB, metadata := none } ∧
    msgLookup c9run.1 (chanC, tsRoot) =
      some { text := lineA, metadata := some (wipMeta sysMsgs userU) } := by
  have h9 : c9run.1 = w9r := by rw [c9run_eq]
  constructor
  · rw [h9]
    show lookupBy w9r.msgs (chanC, mkTs 0) = _
    rw [show w9r.msgs = [((chanC, tsRoot), { text := lineA, metadata := some meta9 }),
        ((chanC, mkTs 0), { text := lineB, metadata := none })] from rfl,
      lookupBy_cons_ne _ _ _ (by decide), lookupBy_cons_eq _ _ _ rfl]
  · rw [h9]
    show lookupBy w9r.msgs (chanC, tsRoot) = _
    rw [show w9r.msgs = [((chanC, tsRoot), { text := lineA, metadata := some meta9 }),
        ((chanC, mkTs 0), { text := lineB, metadata := none })] from rfl,
      lookupBy_cons_eq _ _ _ rfl]
    rfl
